import Mathlib

/-!
Verification of the GTO AI service core (`ai-service/main.py`).

This file shallowly embeds the CFR solver (`FastCFRSolver`), the strategy
endpoint helpers, the convergence-gated cache write, and the background batch
orchestrator, and proves/refutes the frozen specification claims about them.

Modelling conventions:
* Python `float` arithmetic is modelled over `ℚ` (exact arithmetic; the
  numeric literals `0.4`, `0.6`, `0.001`, `0.01`, `0.33`, `0.34` become the
  corresponding rationals).
* Python dicts keyed by the fixed action set `{fold, call, raise}` are
  modelled as the triple `ActMap`: in the source every node dict receives all
  three action keys in the same statement that creates the node, so a node's
  `regret_sum`/`strategy_sum` always holds exactly these three entries.
* The solver's `node_map` dict is modelled as an insertion-ordered
  association list `List (String × Node)`.
* Exceptions are modelled by `Option`: a function that can raise returns
  `none` on the raising input (`solve_strategy` raises `UnboundLocalError`
  when `iterations = 0` because the loop variable is never bound; list
  indexing raises `IndexError` out of range).
* The Redis client is modelled as a pure key-value state `String → Option α`
  threaded through the functions that write it; cache reads in
  `compute_gto_strategy` are modelled as misses (the claims under
  consideration are about the gated write and the computation path).
-/

set_option linter.unusedVariables false

/-- A Python dict over the fixed action set `['fold', 'call', 'raise']`. -/
structure ActMap where
  fold : ℚ
  call : ℚ
  raise : ℚ
  deriving DecidableEq, Repr

namespace ActMap

/-- Sum of the three entries (`sum(d.values())`). -/
def total (m : ActMap) : ℚ := m.fold + m.call + m.raise

/-- All three entries are nonnegative. -/
def Nonneg (m : ActMap) : Prop := 0 ≤ m.fold ∧ 0 ≤ m.call ∧ 0 ≤ m.raise

instance : DecidablePred Nonneg := fun m => by unfold Nonneg; infer_instance

end ActMap

/-- One entry of `FastCFRSolver.node_map` (`main.py` lines 148-153). -/
structure Node where
  regret_sum : ActMap
  strategy_sum : ActMap
  deriving DecidableEq, Repr

/-- A fresh node: both dicts start empty, i.e. every `.get(action, 0)` yields 0
and the first update writes all three keys. -/
def Node.init : Node := ⟨⟨0, 0, 0⟩, ⟨0, 0, 0⟩⟩

/-- One element of `GTOGameState.players` (`players: List[Dict[str, Any]]`);
only the fields the embedded code reads are modelled. -/
structure PlayerData where
  holeCards : String
  invested : ℤ
  position : String
  deriving DecidableEq, Repr

/-- One entry of `GTOGameState.history` (`history: List[Dict[str, Any]]`);
never read by the solver. -/
structure HistoryEntry where
  action : String
  amount : ℤ
  deriving DecidableEq, Repr

/-- `GTOGameState` (`main.py` lines 43-51). -/
structure GameState where
  street : String
  pot : ℤ
  community_cards : String
  players : List PlayerData
  current_player : ℤ
  history : List HistoryEntry
  is_terminal : Bool
  deriving DecidableEq, Repr

/-- Association-list lookup modelling `dict.get` / `in` on `node_map`. -/
def alookup {α : Type} : List (String × α) → String → Option α
  | [], _ => none
  | (k, v) :: rest, key => if k = key then some v else alookup rest key

/-- Association-list in-place value update (`node_map[info_set] = ...` /
mutation of the looked-up node); leaves absent keys alone. -/
def aupdate {α : Type} : List (String × α) → String → α → List (String × α)
  | [], _, _ => []
  | (k, v) :: rest, key, v' =>
    if k = key then (k, v') :: rest else (k, v) :: aupdate rest key v'

/-- Python list indexing `l[i]`, including negative indices; `none` models
`IndexError`. -/
def pyIndex {α : Type} (l : List α) (i : ℤ) : Option α :=
  if 0 ≤ i then l.get? i.toNat
  else if 0 ≤ i + l.length then l.get? (i + l.length).toNat
  else none

/-- `FastCFRSolver._generate_info_set` (lines 235-238) at a valid player
index: `f"{street}|{holeCards}|{community_cards}|{pot}"`.  All solver-side
call sites pass `player < len(players)`; the `getD` default is never read
there. -/
def generateInfoSetN (gs : GameState) (player : ℕ) : String :=
  let player_data := (gs.players.get? player).getD ⟨"", 0, ""⟩
  gs.street ++ "|" ++ player_data.holeCards ++ "|" ++ gs.community_cards
    ++ "|" ++ toString gs.pot

/-- `FastCFRSolver._generate_info_set` as invoked from the endpoints with the
request's `current_player` (Python indexing, may raise). -/
def generateInfoSet (gs : GameState) (player : ℤ) : Option String :=
  (pyIndex gs.players player).map fun player_data =>
    gs.street ++ "|" ++ player_data.holeCards ++ "|" ++ gs.community_cards
      ++ "|" ++ toString gs.pot

/-- `FastCFRSolver._get_strategy` (lines 194-212): regret matching over the
positive parts; uniform `1/len(actions) = 1/3` when the normalizer is 0. -/
def getStrategy (node : Node) : ActMap :=
  let rFold := max 0 node.regret_sum.fold
  let rCall := max 0 node.regret_sum.call
  let rRaise := max 0 node.regret_sum.raise
  let normalizingSum := rFold + rCall + rRaise
  if 0 < normalizingSum then
    ⟨rFold / normalizingSum, rCall / normalizingSum, rRaise / normalizingSum⟩
  else
    ⟨1/3, 1/3, 1/3⟩

/-- The node mutation performed by one `_cfr_iteration` call (lines 161-191):
heuristic utilities `fold ↦ 0`, `call ↦ pot*0.4`, `raise ↦ pot*0.6`, regret
update `regret_sum[a] += (util[a] - node_util) * reach`, strategy
accumulation `strategy_sum[a] += strategy[a] * reach`. -/
def nodeUpdate (pot : ℚ) (reach : ℚ) (node : Node) : Node :=
  let strategy := getStrategy node
  let utilFold : ℚ := 0
  let utilCall : ℚ := pot * (4/10)
  let utilRaise : ℚ := pot * (6/10)
  let nodeUtil := strategy.fold * utilFold + strategy.call * utilCall
    + strategy.raise * utilRaise
  { regret_sum :=
      ⟨node.regret_sum.fold + (utilFold - nodeUtil) * reach,
       node.regret_sum.call + (utilCall - nodeUtil) * reach,
       node.regret_sum.raise + (utilRaise - nodeUtil) * reach⟩,
    strategy_sum :=
      ⟨node.strategy_sum.fold + strategy.fold * reach,
       node.strategy_sum.call + strategy.call * reach,
       node.strategy_sum.raise + strategy.raise * reach⟩ }

/-- The counterfactual value `node_util` computed by `_cfr_iteration`. -/
def nodeUtilOf (pot : ℚ) (node : Node) : ℚ :=
  let strategy := getStrategy node
  strategy.fold * 0 + strategy.call * (pot * (4/10))
    + strategy.raise * (pot * (6/10))

/-- `FastCFRSolver._cfr_iteration` (lines 143-192): create the node on first
visit, then apply the regret/strategy update with
`reach = reach_prob[player]`. -/
def cfrIteration (gs : GameState) (player : ℕ) (reachProb : List ℚ)
    (m : List (String × Node)) : List (String × Node) × ℚ :=
  let infoSet := generateInfoSetN gs player
  let m :=
    match alookup m infoSet with
    | none => m ++ [(infoSet, Node.init)]
    | some _ => m
  let node := (alookup m infoSet).getD Node.init
  let reach := reachProb.getD player 0
  (aupdate m infoSet (nodeUpdate (gs.pot : ℚ) reach node),
   nodeUtilOf (gs.pot : ℚ) node)

/-- The inner player loop of `solve_strategy` (lines 116-117): one CFR
iteration runs `_cfr_iteration` for every `player in range(len(players))`
with `reach_prob = [1.0] * len(players)`. -/
def cfrPass (gs : GameState) (m : List (String × Node)) :
    List (String × Node) :=
  (List.range gs.players.length).foldl
    (fun m player =>
      (cfrIteration gs player (List.replicate gs.players.length 1) m).1) m

/-- `FastCFRSolver._calculate_exploitability` (lines 240-251): mean absolute
accumulated regret over all regret entries (3 per node). -/
def calculateExploitability (m : List (String × Node)) : ℚ :=
  let totalRegret := (m.map (fun kn =>
    |kn.2.regret_sum.fold| + |kn.2.regret_sum.call| + |kn.2.regret_sum.raise|)).sum
  let nodeCount := 3 * m.length
  if 0 < nodeCount then totalRegret / max 1 nodeCount else 0

/-- `FastCFRSolver._get_average_strategy` (lines 214-233): normalize each
node's `strategy_sum`; uniform `1/num_actions = 1/3` if the sum is 0. -/
def getAverageStrategy (m : List (String × Node)) : List (String × ActMap) :=
  m.map fun kn =>
    (kn.1,
      let normalizingSum := kn.2.strategy_sum.total
      if 0 < normalizingSum then
        ⟨kn.2.strategy_sum.fold / normalizingSum,
         kn.2.strategy_sum.call / normalizingSum,
         kn.2.strategy_sum.raise / normalizingSum⟩
      else ⟨1/3, 1/3, 1/3⟩)

/-- `solve_strategy`'s result dict (lines 132-137). -/
structure SolveResult where
  strategy : List (String × ActMap)
  exploitability : ℚ
  iterations : ℕ
  convergence_history : List ℚ
  deriving DecidableEq, Repr

/-- The iteration loop of `solve_strategy` (lines 114-126): run one CFR pass
per iteration, sample exploitability every 100 iterations, break early below
the `0.001` convergence threshold.  `i` is the Python loop variable,
`rem` the remaining iterations; returns (final node map, history,
`iteration + 1` at exit). -/
def solveLoop (gs : GameState) :
    ℕ → ℕ → List (String × Node) → List ℚ →
    List (String × Node) × List ℚ × ℕ
  | i, 0, m, hist => (m, hist, i)
  | i, rem + 1, m, hist =>
    let m' := cfrPass gs m
    if i % 100 = 0 then
      let e := calculateExploitability m'
      let hist' := hist ++ [e]
      if e < 1/1000 then (m', hist', i + 1)
      else solveLoop gs (i + 1) rem m' hist'
    else solveLoop gs (i + 1) rem m' hist

/-- `FastCFRSolver.solve_strategy` (lines 104-141).  `none` models the
exception escaping the `try` block: with `iterations = 0` the loop never
binds `iteration` and line 135 raises `UnboundLocalError`, which is logged
and re-raised. -/
def solveStrategy (gs : GameState) (iterations : ℕ) : Option SolveResult :=
  if iterations = 0 then none
  else
    let r := solveLoop gs 0 iterations [] []
    some { strategy := getAverageStrategy r.1,
           exploitability := (r.2.1.getLast?).getD 0,
           iterations := r.2.2,
           convergence_history := r.2.1 }

/-- The strategy lookup with near-uniform fallback performed by the
endpoints (`main.py` lines 350 and 392):
`result['strategy'].get(info_set, {'fold': 0.33, 'call': 0.33, 'raise': 0.34})`. -/
def lookupStrategyData (strategy : List (String × ActMap)) (infoSet : String) :
    ActMap :=
  (alookup strategy infoSet).getD ⟨33/100, 33/100, 34/100⟩

/-- The confidence reported by both endpoints (lines 356 and 421):
`max(0.0, min(1.0, 1.0 - exploitability))`. -/
def confidenceOf (exploitability : ℚ) : ℚ :=
  max 0 (min 1 (1 - exploitability))

/-- `GTOStrategy` response model (lines 53-59). -/
structure GTOStrategyResp where
  strategy : ActMap
  exploitability : ℚ
  iterations : ℕ
  confidence : ℚ
  info_set : String
  deriving DecidableEq, Repr

/-- The computation path of the `/api/gto/strategy` endpoint
(`compute_gto_strategy`, lines 327-378), modelled with a cache miss: solve,
derive the current player's info set (Python indexing may raise → `none`,
surfaced as a 500), then look the strategy up with the near-uniform
fallback. -/
def computeGtoStrategy (gs : GameState) (iterations : ℕ) :
    Option GTOStrategyResp :=
  match solveStrategy gs iterations with
  | none => none
  | some result =>
    match generateInfoSet gs gs.current_player with
    | none => none
    | some infoSet =>
      some { strategy := lookupStrategyData result.strategy infoSet,
             exploitability := result.exploitability,
             iterations := result.iterations,
             confidence := confidenceOf result.exploitability,
             info_set := infoSet }

/-- The convergence-gated cache write shared by `compute_gto_strategy`
(line 361) and `process_batch_background` (line 562): the value is stored
only when the client is connected and `exploitability < 0.01`; otherwise the
cache state is untouched.  `α` is the serialized payload. -/
def cachePutGated {α : Type} (redisConnected : Bool) (exploitability : ℚ)
    (cache : String → Option α) (key : String) (value : α) :
    String → Option α :=
  if redisConnected ∧ exploitability < 1/100 then
    fun k => if k = key then some value else cache k
  else cache

/-- A cache read (`redis_client.get`). -/
def cacheGet {α : Type} (cache : String → Option α) (key : String) :
    Option α := cache key

/-- `calculate_pot_odds` (lines 601-605); `none` models the
`ZeroDivisionError` raised when `call_amount ≠ 0` but `pot + call_amount = 0`. -/
def calculatePotOdds (pot : ℤ) (callAmount : ℤ) : Option ℚ :=
  if callAmount = 0 then some 0
  else if (pot : ℚ) + (callAmount : ℚ) = 0 then none
  else some ((callAmount : ℚ) / ((pot : ℚ) + (callAmount : ℚ)))

/-- `get_call_amount` (lines 616-623): `max(0, max_invested - invested)`,
with any exception (bad `current_player` index, empty `players`) caught and
turned into 0. -/
def getCallAmount (gs : GameState) : ℤ :=
  match pyIndex gs.players gs.current_player, gs.players with
  | some currentPlayer, p :: rest =>
    max 0 ((rest.foldl (fun acc q => max acc q.invested) p.invested)
      - currentPlayer.invested)
  | _, _ => 0

/-- `TrainingProgress` (lines 88-94), as serialized into the per-batch
progress record. -/
structure TrainingProgress where
  completed : ℕ
  total : ℕ
  current_exploitability : ℚ
  average_convergence_rate : ℚ
  estimated_time_remaining : ℤ
  deriving DecidableEq, Repr

/-- The payload cached per scenario by the batch worker (lines 564-568). -/
structure BatchCacheVal where
  strategy : List (String × ActMap)
  exploitability : ℚ
  iterations : ℕ
  deriving DecidableEq, Repr

/-- Observable final state of one `process_batch_background` run. -/
structure BatchState where
  completed : ℕ
  total : ℕ
  progress : Option TrainingProgress
  cache : String → Option BatchCacheVal
  attempted : ℕ
  convergence_rates : List ℚ

/-- Cache key derivation for a scenario
(`f"gto_strategy:{hash(str(scenario.dict()))}"`), modelled as an injective
rendering of the state. -/
def scenarioCacheKey (gs : GameState) : String :=
  "gto_strategy:" ++ toString (repr gs)

/-- The per-scenario body of the batch loop (lines 536-571) followed by the
rest of the list; an exception from `solve_strategy` propagates out of the
`for` loop to the job-level `except` (lines 575-576), which logs it and
returns, so the remaining scenarios are never attempted. -/
def processBatchLoop (iterations : ℕ) (cacheResults : Bool)
    (redisConnected : Bool) : List GameState → BatchState → BatchState
  | [], st => st
  | scenario :: rest, st =>
    match solveStrategy scenario iterations with
    | none => { st with attempted := st.attempted + 1 }
    | some result =>
      let rates := st.convergence_rates ++ [1 - result.exploitability]
      let completed := st.completed + 1
      let progress : Option TrainingProgress :=
        if redisConnected then
          some { completed := completed,
                 total := st.total,
                 current_exploitability := result.exploitability,
                 average_convergence_rate := rates.sum / rates.length,
                 estimated_time_remaining := ((st.total : ℤ) - completed) * 2 }
        else st.progress
      let cache := cachePutGated (cacheResults && redisConnected)
        result.exploitability st.cache (scenarioCacheKey scenario)
        ⟨result.strategy, result.exploitability, result.iterations⟩
      processBatchLoop iterations cacheResults redisConnected rest
        { completed := completed,
          total := st.total,
          progress := progress,
          cache := cache,
          attempted := st.attempted + 1,
          convergence_rates := rates }

/-- `process_batch_background` (lines 529-576). -/
def processBatchBackground (scenarios : List GameState) (iterations : ℕ)
    (cacheResults : Bool) (redisConnected : Bool)
    (cache : String → Option BatchCacheVal) : BatchState :=
  processBatchLoop iterations cacheResults redisConnected scenarios
    { completed := 0, total := scenarios.length, progress := none,
      cache := cache, attempted := 0, convergence_rates := [] }

/-! ## Proof infrastructure: the per-node orbit of the CFR update

Within one solve, every `_cfr_iteration` call updates exactly one node, the
update depends only on the pot and the node's own state (all reach
probabilities are `1.0`), so every node's state is `nodeUpdate pot 1`
iterated from `Node.init` as many times as its key was visited. -/

/-- The state of a node after `k` visits. -/
def iterNode (pot : ℚ) : ℕ → Node
  | 0 => Node.init
  | k + 1 => nodeUpdate pot 1 (iterNode pot k)

/-- Total absolute accumulated regret of a node (its contribution to
`_calculate_exploitability`). -/
def regAbs (nd : Node) : ℚ :=
  |nd.regret_sum.fold| + |nd.regret_sum.call| + |nd.regret_sum.raise|

theorem getStrategy_total (nd : Node) : (getStrategy nd).total = 1 := by
  simp only [getStrategy, ActMap.total]
  split
  · next h => field_simp
  · norm_num

theorem getStrategy_nonneg (nd : Node) : (getStrategy nd).Nonneg := by
  simp only [getStrategy, ActMap.Nonneg]
  split
  · next h =>
    exact ⟨div_nonneg (le_max_left _ _) h.le, div_nonneg (le_max_left _ _) h.le,
      div_nonneg (le_max_left _ _) h.le⟩
  · norm_num

theorem iterNode_ssum_total (p : ℚ) (k : ℕ) :
    (iterNode p k).strategy_sum.total = k := by
  induction k with
  | zero => simp [iterNode, Node.init, ActMap.total]
  | succ k ih =>
    have h := getStrategy_total (iterNode p k)
    simp only [iterNode, nodeUpdate, ActMap.total] at *
    push_cast
    linarith

theorem iterNode_ssum_nonneg (p : ℚ) (k : ℕ) :
    (iterNode p k).strategy_sum.Nonneg := by
  induction k with
  | zero => exact ⟨le_refl 0, le_refl 0, le_refl 0⟩
  | succ k ih =>
    obtain ⟨h1, h2, h3⟩ := ih
    obtain ⟨g1, g2, g3⟩ := getStrategy_nonneg (iterNode p k)
    simp only [iterNode, nodeUpdate, ActMap.Nonneg] at *
    exact ⟨by linarith, by linarith, by linarith⟩

theorem getStrategy_init : getStrategy Node.init = ⟨1/3, 1/3, 1/3⟩ := by
  simp [getStrategy, Node.init]

/-- One visit from a fresh node, for any pot. -/
theorem iterNode_one (p : ℚ) :
    iterNode p 1 = ⟨⟨-(p/3), p/15, 4*p/15⟩, ⟨1/3, 1/3, 1/3⟩⟩ := by
  show nodeUpdate p 1 Node.init = _
  rw [nodeUpdate, getStrategy_init]
  simp only [Node.init, Node.mk.injEq, ActMap.mk.injEq]
  refine ⟨⟨by ring, by ring, by ring⟩, by norm_num, by norm_num, by norm_num⟩

/-- Regret-matching strategy of a node whose fold/call regrets are
nonpositive and whose raise regret is positive: pure raise. -/
theorem getStrategy_raiseOnly (nd : Node) (hf : nd.regret_sum.fold ≤ 0)
    (hc : nd.regret_sum.call ≤ 0) (hr : 0 < nd.regret_sum.raise) :
    getStrategy nd = ⟨0, 0, 1⟩ := by
  simp only [getStrategy]
  rw [max_eq_left hf, max_eq_left hc, max_eq_right hr.le]
  rw [if_pos (by linarith)]
  simp only [ActMap.mk.injEq]
  refine ⟨by simp, by simp, ?_⟩
  field_simp

/-- Regret-matching strategy of a node whose fold regret is positive and
whose call/raise regrets are nonpositive: pure fold. -/
theorem getStrategy_foldOnly (nd : Node) (hf : 0 < nd.regret_sum.fold)
    (hc : nd.regret_sum.call ≤ 0) (hr : nd.regret_sum.raise ≤ 0) :
    getStrategy nd = ⟨1, 0, 0⟩ := by
  simp only [getStrategy]
  rw [max_eq_right hf.le, max_eq_left hc, max_eq_left hr]
  rw [if_pos (by linarith)]
  simp only [ActMap.mk.injEq]
  refine ⟨?_, by simp, by simp⟩
  field_simp

/-- Once fold/call regrets are nonpositive and the raise regret positive
(the steady state for a positive pot), one more visit subtracts `3p/5` from
the fold regret, `p/5` from the call regret, keeps the raise regret, and
adds the pure-raise strategy. -/
theorem nodeUpdate_raiseOnly (p : ℚ) (nd : Node) (hf : nd.regret_sum.fold ≤ 0)
    (hc : nd.regret_sum.call ≤ 0) (hr : 0 < nd.regret_sum.raise) :
    nodeUpdate p 1 nd =
      ⟨⟨nd.regret_sum.fold - 3*p/5, nd.regret_sum.call - p/5,
        nd.regret_sum.raise⟩,
       ⟨nd.strategy_sum.fold, nd.strategy_sum.call,
        nd.strategy_sum.raise + 1⟩⟩ := by
  rw [nodeUpdate, getStrategy_raiseOnly nd hf hc hr]
  simp only [Node.mk.injEq, ActMap.mk.injEq]
  refine ⟨⟨by ring, by ring, by ring⟩, by ring, by ring, by ring⟩

/-- Once the fold regret is positive and call/raise regrets nonpositive
(the steady state for a negative pot), one more visit keeps the fold
regret, adds `2p/5` to call, `3p/5` to raise, and adds the pure-fold
strategy. -/
theorem nodeUpdate_foldOnly (p : ℚ) (nd : Node) (hf : 0 < nd.regret_sum.fold)
    (hc : nd.regret_sum.call ≤ 0) (hr : nd.regret_sum.raise ≤ 0) :
    nodeUpdate p 1 nd =
      ⟨⟨nd.regret_sum.fold, nd.regret_sum.call + 2*p/5,
        nd.regret_sum.raise + 3*p/5⟩,
       ⟨nd.strategy_sum.fold + 1, nd.strategy_sum.call,
        nd.strategy_sum.raise⟩⟩ := by
  rw [nodeUpdate, getStrategy_foldOnly nd hf hc hr]
  simp only [Node.mk.injEq, ActMap.mk.injEq]
  refine ⟨⟨by ring, by ring, by ring⟩, by ring, by ring, by ring⟩

/-- Second visit, positive pot. -/
theorem iterNode_two_pos (p : ℚ) (hp : 0 < p) :
    iterNode p 2 = ⟨⟨-(67*p/75), -(7*p/75), 23*p/75⟩, ⟨1/3, 8/15, 17/15⟩⟩ := by
  have h1 : iterNode p 2 = nodeUpdate p 1 (iterNode p 1) := rfl
  rw [h1, iterNode_one, nodeUpdate]
  have hs : getStrategy ⟨⟨-(p/3), p/15, 4*p/15⟩, ⟨1/3, 1/3, 1/3⟩⟩
      = ⟨0, 1/5, 4/5⟩ := by
    simp only [getStrategy]
    rw [max_eq_left (by linarith : -(p/3) ≤ 0),
      max_eq_right (by linarith : (0:ℚ) ≤ p/15),
      max_eq_right (by linarith : (0:ℚ) ≤ 4*p/15)]
    rw [if_pos (by linarith)]
    simp only [ActMap.mk.injEq]
    refine ⟨by simp, ?_, ?_⟩ <;> · field_simp; ring
  rw [hs]
  simp only [Node.mk.injEq, ActMap.mk.injEq]
  refine ⟨⟨by ring, by ring, by ring⟩, by ring, by ring, by ring⟩

/-- Closed form of the node orbit for a positive pot, from the third visit
on: fold/call regrets decrease linearly, the raise regret is frozen at
`23p/75`, and every further visit accumulates pure raise. -/
theorem iterNode_pos_closed (p : ℚ) (hp : 0 < p) (k : ℕ) :
    iterNode p (k + 2) =
      ⟨⟨-(67*p/75) - k*(3*p/5), -(7*p/75) - k*(p/5), 23*p/75⟩,
       ⟨1/3, 8/15, 17/15 + k⟩⟩ := by
  induction k with
  | zero => simpa using iterNode_two_pos p hp
  | succ k ih =>
    have h1 : iterNode p (k + 1 + 2) = nodeUpdate p 1 (iterNode p (k + 2)) := rfl
    rw [h1, ih]
    have hk : (0:ℚ) ≤ k := Nat.cast_nonneg k
    rw [nodeUpdate_raiseOnly p _ (by dsimp; nlinarith) (by dsimp; nlinarith)
      (by dsimp; linarith)]
    simp only [Node.mk.injEq, ActMap.mk.injEq]
    push_cast
    refine ⟨⟨by ring, by ring, by ring⟩, by ring, by ring, by ring⟩

/-- Closed form of the node orbit for a negative pot, from the second visit
on: the fold regret is frozen at `-p/3 > 0`, call/raise regrets decrease
linearly, and every further visit accumulates pure fold. -/
theorem iterNode_neg_closed (p : ℚ) (hp : p < 0) (k : ℕ) :
    iterNode p (k + 1) =
      ⟨⟨-(p/3), p/15 + k*(2*p/5), 4*p/15 + k*(3*p/5)⟩,
       ⟨1/3 + k, 1/3, 1/3⟩⟩ := by
  induction k with
  | zero => simpa using iterNode_one p
  | succ k ih =>
    have h1 : iterNode p (k + 1 + 1) = nodeUpdate p 1 (iterNode p (k + 1)) := rfl
    rw [h1, ih]
    have hk : (0:ℚ) ≤ k := Nat.cast_nonneg k
    rw [nodeUpdate_foldOnly p _ (by dsimp; linarith) (by dsimp; nlinarith)
      (by dsimp; nlinarith)]
    simp only [Node.mk.injEq, ActMap.mk.injEq]
    push_cast
    refine ⟨⟨by ring, by ring, by ring⟩, by ring, by ring, by ring⟩

/-- Orbit for a zero pot: regrets stay at zero, the strategy stays uniform. -/
theorem iterNode_zero_pot (k : ℕ) :
    iterNode 0 k = ⟨⟨0, 0, 0⟩, ⟨k/3, k/3, k/3⟩⟩ := by
  induction k with
  | zero => simp [iterNode, Node.init]
  | succ k ih =>
    have h1 : iterNode 0 (k + 1) = nodeUpdate 0 1 (iterNode 0 k) := rfl
    rw [h1, ih, nodeUpdate]
    have hs : getStrategy ⟨⟨0, 0, 0⟩, ⟨k/3, k/3, k/3⟩⟩ = ⟨1/3, 1/3, 1/3⟩ := by
      simp [getStrategy]
    rw [hs]
    simp only [Node.mk.injEq, ActMap.mk.injEq]
    push_cast
    refine ⟨⟨by ring, by ring, by ring⟩, by ring, by ring, by ring⟩

/-! ## Proof infrastructure: shape of the node map

Updates to distinct keys are independent, so after any prefix of the solve
the node map is exactly: one entry per distinct visited key, in first-visit
order, whose node is the orbit `iterNode` at that key's visit count. -/

theorem alookup_append_of_none {α : Type} {m : List (String × α)} {k : String}
    (h : alookup m k = none) (l : List (String × α)) :
    alookup (m ++ l) k = alookup l k := by
  induction m with
  | nil => rfl
  | cons kv rest ih =>
    rw [alookup] at h
    by_cases hk : kv.1 = k
    · simp [hk] at h
    · simp only [List.cons_append, alookup, if_neg hk] at *
      exact ih h

theorem aupdate_append_of_none {α : Type} {m : List (String × α)} {k : String}
    (h : alookup m k = none) (l : List (String × α)) (v : α) :
    aupdate (m ++ l) k v = m ++ aupdate l k v := by
  induction m with
  | nil => rfl
  | cons kv rest ih =>
    obtain ⟨k0, v0⟩ := kv
    rw [alookup] at h
    by_cases hk : k0 = k
    · simp [hk] at h
    · simp only [List.cons_append, aupdate, if_neg hk, List.append_eq] at *
      rw [ih h]

/-- Lookup in a map built uniformly over a key list. -/
theorem alookup_map_keys {α : Type} (f : String → α) (ks : List String)
    (k : String) :
    alookup (ks.map fun k' => (k', f k')) k =
      if k ∈ ks then some (f k) else none := by
  induction ks with
  | nil => rfl
  | cons k0 rest ih =>
    simp only [List.map_cons, alookup, List.mem_cons]
    by_cases hk : k0 = k
    · subst hk; simp
    · rw [if_neg hk, ih]
      by_cases hmem : k ∈ rest
      · simp [hmem]
      · have hks : ¬ (k = k0) := fun h => hk h.symm
        simp [hmem, hks]

/-- Update in a duplicate-free uniformly built map rebuilds it pointwise. -/
theorem aupdate_map_keys {α : Type} (f : String → α) (ks : List String)
    (hnd : ks.Nodup) (k : String) (v : α) :
    aupdate (ks.map fun k' => (k', f k')) k v =
      ks.map fun k' => (k', if k' = k then v else f k') := by
  induction ks with
  | nil => rfl
  | cons k0 rest ih =>
    simp only [List.map_cons, aupdate]
    rcases List.nodup_cons.mp hnd with ⟨hk0, hrest⟩
    by_cases hk : k0 = k
    · subst hk
      rw [if_pos rfl, if_pos rfl]
      congr 1
      apply List.map_congr_left
      intro a ha
      rw [if_neg]
      intro hak
      exact hk0 (hak ▸ ha)
    · rw [if_neg hk, if_neg hk, ih hrest]

/-- First-occurrence deduplication (Python dict key insertion order). -/
def fod (seen : List String) : List String → List String
  | [] => []
  | k :: rest => if k ∈ seen then fod seen rest else k :: fod (k :: seen) rest

theorem mem_fod {a : String} : ∀ {seen L : List String},
    a ∈ fod seen L ↔ a ∈ L ∧ a ∉ seen := by
  intro seen L
  induction L generalizing seen with
  | nil => simp [fod]
  | cons k rest ih =>
    rw [fod]
    by_cases hk : k ∈ seen
    · rw [if_pos hk, ih]
      constructor
      · rintro ⟨h1, h2⟩; exact ⟨List.mem_cons_of_mem _ h1, h2⟩
      · rintro ⟨h1, h2⟩
        rcases List.mem_cons.mp h1 with rfl | h1
        · exact absurd hk h2
        · exact ⟨h1, h2⟩
    · rw [if_neg hk]
      constructor
      · intro h
        rcases List.mem_cons.mp h with rfl | h
        · exact ⟨List.mem_cons_self _ _, hk⟩
        · rcases ih.mp h with ⟨h1, h2⟩
          simp only [List.mem_cons] at h2
          push_neg at h2
          exact ⟨List.mem_cons_of_mem _ h1, h2.2⟩
      · rintro ⟨h1, h2⟩
        rcases List.mem_cons.mp h1 with rfl | h1
        · exact List.mem_cons_self _ _
        · by_cases hak : a = k
          · subst hak; exact List.mem_cons_self _ _
          · exact List.mem_cons_of_mem _
              (ih.mpr ⟨h1, by simp [hak, h2]⟩)

theorem fod_nodup : ∀ (seen L : List String), (fod seen L).Nodup := by
  intro seen L
  induction L generalizing seen with
  | nil => exact List.nodup_nil
  | cons k rest ih =>
    rw [fod]
    by_cases hk : k ∈ seen
    · rw [if_pos hk]; exact ih seen
    · rw [if_neg hk]
      refine List.nodup_cons.mpr ⟨?_, ih (k :: seen)⟩
      intro hmem
      exact (mem_fod.mp hmem).2 (List.mem_cons_self _ _)

theorem fod_append_single (seen L : List String) (k : String) :
    fod seen (L ++ [k]) =
      if k ∈ seen ∨ k ∈ L then fod seen L else fod seen L ++ [k] := by
  induction L generalizing seen with
  | nil =>
    by_cases hk : k ∈ seen <;> simp [fod, hk]
  | cons k0 rest ih =>
    simp only [List.cons_append, fod, List.mem_cons, List.append_eq]
    by_cases hk0 : k0 ∈ seen
    · rw [if_pos hk0, if_pos hk0, ih seen]
      by_cases hk : k ∈ seen ∨ k ∈ rest
      · rw [if_pos hk, if_pos (by tauto)]
      · push_neg at hk
        by_cases hkk : k = k0
        · subst hkk; rw [if_pos (Or.inl hk0), if_pos (by tauto)]
        · rw [if_neg (by tauto), if_neg (by tauto)]
    · rw [if_neg hk0, if_neg hk0, ih (k0 :: seen)]
      simp only [List.mem_cons]
      by_cases hkk : k = k0
      · subst hkk
        rw [if_pos (by tauto), if_pos (by tauto)]
      · by_cases hk : k ∈ seen ∨ k ∈ rest
        · rw [if_pos (by tauto), if_pos (by tauto)]
        · push_neg at hk
          rw [if_neg (by tauto), if_neg (by tauto), List.cons_append]

/-- Number of occurrences of a key in a trace. -/
def cnt (k : String) : List String → ℕ
  | [] => 0
  | a :: rest => (if a = k then 1 else 0) + cnt k rest

theorem cnt_append (k : String) (L T : List String) :
    cnt k (L ++ T) = cnt k L + cnt k T := by
  induction L with
  | nil => simp [cnt]
  | cons a rest ih =>
    simp only [List.cons_append, cnt, List.append_eq, ih]
    omega

theorem cnt_single (k a : String) : cnt k [a] = if a = k then 1 else 0 := by
  simp [cnt]

theorem mem_iff_cnt_pos {k : String} : ∀ {L : List String},
    k ∈ L ↔ 1 ≤ cnt k L := by
  intro L
  induction L with
  | nil => simp [cnt]
  | cons a rest ih =>
    simp only [List.mem_cons, cnt]
    by_cases ha : a = k
    · subst ha; simp
    · have : ¬ (k = a) := fun h => ha h.symm
      simp [ha, this, ih]

/-- The node map assembled from a trace of visited keys: one entry per
distinct key in first-visit order, holding the orbit at its visit count. -/
def asmMap (p : ℚ) (L : List String) : List (String × Node) :=
  (fod [] L).map fun k => (k, iterNode p (cnt k L))

/-- The effect of one `_cfr_iteration` call on the node map, as a function
of the visited key. -/
def stepKeyFn (p : ℚ) (m : List (String × Node)) (k : String) :
    List (String × Node) :=
  match alookup m k with
  | none => m ++ [(k, nodeUpdate p 1 Node.init)]
  | some nd => aupdate m k (nodeUpdate p 1 nd)

theorem mem_fod_nil {a : String} {L : List String} : a ∈ fod [] L ↔ a ∈ L := by
  rw [mem_fod]; simp

theorem iterNode_succ (p : ℚ) (k : ℕ) :
    iterNode p (k + 1) = nodeUpdate p 1 (iterNode p k) := rfl

theorem asm_step (p : ℚ) (L : List String) (k : String) :
    stepKeyFn p (asmMap p L) k = asmMap p (L ++ [k]) := by
  by_cases hmem : k ∈ L
  · have hlook : alookup (asmMap p L) k = some (iterNode p (cnt k L)) := by
      rw [asmMap, alookup_map_keys, if_pos (mem_fod_nil.mpr hmem)]
    simp only [stepKeyFn, hlook]
    rw [← iterNode_succ, asmMap, aupdate_map_keys _ _ (fod_nodup _ _)]
    rw [asmMap, fod_append_single,
      if_pos (Or.inr hmem : k ∈ ([] : List String) ∨ k ∈ L)]
    apply List.map_congr_left
    intro a ha
    by_cases hak : a = k
    · subst hak
      simp [cnt_append, cnt_single]
    · have hka : ¬ (k = a) := fun h => hak h.symm
      simp [hak, cnt_append, cnt_single, hka]
  · have hlook : alookup (asmMap p L) k = none := by
      rw [asmMap, alookup_map_keys, if_neg (fun h => hmem (mem_fod_nil.mp h))]
    simp only [stepKeyFn, hlook]
    rw [asmMap, asmMap, fod_append_single,
      if_neg (by simp [hmem] : ¬ (k ∈ ([] : List String) ∨ k ∈ L)),
      List.map_append]
    congr 1
    · apply List.map_congr_left
      intro a ha
      have haL : a ∈ L := mem_fod_nil.mp ha
      have hak : ¬ (k = a) := fun h => hmem (h ▸ haL)
      simp [cnt_append, cnt_single, hak]
    · have hck : cnt k (L ++ [k]) = 1 := by
        rw [cnt_append, cnt_single, if_pos rfl,
          Nat.eq_zero_of_not_pos (fun h => hmem (mem_iff_cnt_pos.mpr h))]
      simp only [List.map_cons, List.map_nil, hck]
      rw [iterNode_succ]
      rfl

theorem asm_foldl (p : ℚ) : ∀ (T L : List String),
    T.foldl (stepKeyFn p) (asmMap p L) = asmMap p (L ++ T) := by
  intro T
  induction T with
  | nil => simp
  | cons k T ih =>
    intro L
    rw [List.foldl_cons, asm_step, ih]
    congr 1
    simp

theorem replicate_getD_one : ∀ (n i : ℕ), i < n →
    (List.replicate n (1:ℚ)).getD i 0 = 1 := by
  intro n
  induction n with
  | zero => intro i h; omega
  | succ n ih =>
    intro i h
    cases i with
    | zero => rfl
    | succ i => exact ih i (by omega)

/-- `_cfr_iteration` at a valid player index is exactly the key-step
function at that player's info-set key. -/
theorem cfrIteration_to_step (gs : GameState) (player : ℕ)
    (h : player < gs.players.length) (m : List (String × Node)) :
    (cfrIteration gs player (List.replicate gs.players.length 1) m).1 =
      stepKeyFn (gs.pot : ℚ) m (generateInfoSetN gs player) := by
  rw [cfrIteration, stepKeyFn]
  cases hl : alookup m (generateInfoSetN gs player) with
  | none =>
    simp only [hl]
    rw [alookup_append_of_none hl]
    simp only [alookup, if_pos rfl, Option.getD_some]
    rw [aupdate_append_of_none hl]
    simp only [aupdate, if_pos rfl]
    rw [replicate_getD_one _ _ h]
    simp
  | some nd =>
    simp only [hl, Option.getD_some]
    rw [replicate_getD_one _ _ h]

theorem foldl_congr_mem {α β : Type} {l : List α} {f g : β → α → β}
    (h : ∀ acc, ∀ x ∈ l, f acc x = g acc x) (b : β) :
    l.foldl f b = l.foldl g b := by
  induction l generalizing b with
  | nil => rfl
  | cons x rest ih =>
    rw [List.foldl_cons, List.foldl_cons, h b x (List.mem_cons_self _ _)]
    exact ih (fun acc y hy => h acc y (List.mem_cons_of_mem _ hy)) _

/-- The info-set keys visited by one CFR pass, in player order. -/
def traceOf (gs : GameState) : List String :=
  (List.range gs.players.length).map (generateInfoSetN gs)

theorem cfrPass_asm (gs : GameState) (L : List String) :
    cfrPass gs (asmMap (gs.pot : ℚ) L) = asmMap (gs.pot : ℚ) (L ++ traceOf gs) := by
  rw [cfrPass]
  rw [foldl_congr_mem (g := fun m player =>
    stepKeyFn (gs.pot : ℚ) m (generateInfoSetN gs player))
    (fun acc x hx => cfrIteration_to_step gs x (List.mem_range.mp hx) acc)]
  rw [← List.foldl_map, ← traceOf, asm_foldl]

/-- The full visit trace after `t` CFR passes. -/
def traceN (gs : GameState) : ℕ → List String
  | 0 => []
  | t + 1 => traceN gs t ++ traceOf gs

theorem cnt_traceN (gs : GameState) (k : String) (t : ℕ) :
    cnt k (traceN gs t) = t * cnt k (traceOf gs) := by
  induction t with
  | zero => simp [traceN, cnt]
  | succ t ih => rw [traceN, cnt_append, ih]; ring

theorem cfrPass_traceN (gs : GameState) (t : ℕ) :
    cfrPass gs (asmMap (gs.pot : ℚ) (traceN gs t)) =
      asmMap (gs.pot : ℚ) (traceN gs (t + 1)) := cfrPass_asm gs _

theorem fod_append_of_subset (seen L : List String) :
    ∀ T, (∀ x ∈ T, x ∈ L) → fod seen (L ++ T) = fod seen L := by
  intro T
  induction T using List.reverseRecOn with
  | nil => simp
  | append_singleton T k ih =>
    intro h
    rw [← List.append_assoc, fod_append_single,
      if_pos (Or.inr (List.mem_append_left _ (h k (by simp))))]
    exact ih (fun x hx => h x (List.mem_append_left _ hx))

theorem traceOf_subset_traceN (gs : GameState) (t : ℕ) (ht : 1 ≤ t) :
    ∀ x ∈ traceOf gs, x ∈ traceN gs t := by
  cases t with
  | zero => omega
  | succ t => intro x hx; rw [traceN]; exact List.mem_append_right _ hx

theorem fod_traceN (gs : GameState) (t : ℕ) (ht : 1 ≤ t) :
    fod [] (traceN gs t) = fod [] (traceOf gs) := by
  induction t with
  | zero => omega
  | succ t ih =>
    cases Nat.eq_or_lt_of_le ht with
    | inl h1 =>
      rw [← h1]
      show fod [] (traceN gs 0 ++ traceOf gs) = _
      rw [traceN, List.nil_append]
    | inr h1 =>
      have ht1 : 1 ≤ t := by omega
      rw [traceN, fod_append_of_subset _ _ _ (traceOf_subset_traceN gs t ht1),
        ih ht1]

/-! ## Proof infrastructure: exploitability along the run -/

theorem regAbs_nonneg (nd : Node) : 0 ≤ regAbs nd := by
  unfold regAbs; positivity

theorem calcExploit_nonneg (m : List (String × Node)) :
    0 ≤ calculateExploitability m := by
  rw [calculateExploitability]
  split
  · apply div_nonneg
    · apply List.sum_nonneg
      intro x hx
      rcases List.mem_map.mp hx with ⟨kn, _, rfl⟩
      positivity
    · positivity
  · exact le_refl 0

theorem calcExploit_asm (p : ℚ) (L : List String) :
    calculateExploitability (asmMap p L) =
      if (fod [] L).length = 0 then 0
      else ((fod [] L).map (fun k => regAbs (iterNode p (cnt k L)))).sum /
        ((3 : ℚ) * (fod [] L).length) := by
  rw [calculateExploitability, asmMap]
  simp only [List.map_map, List.length_map, Function.comp]
  by_cases hl : (fod [] L).length = 0
  · rw [if_pos hl, if_neg (by omega)]
  · rw [if_pos (by omega), if_neg hl]
    have hmax : max 1 (3 * (fod [] L).length) = 3 * (fod [] L).length := by
      omega
    rw [hmax]
    have hcast : ((3 * (fod [] L).length : ℕ) : ℚ)
        = (3 : ℚ) * (fod [] L).length := by push_cast; ring
    rw [hcast]
    simp only [Function.comp_def, regAbs]

theorem regAbs_iterNode_zero (p : ℚ) : regAbs (iterNode p 0) = 0 := by
  simp [iterNode, regAbs, Node.init]

theorem regAbs_pos_one (p : ℚ) (hp : 0 < p) : regAbs (iterNode p 1) = 2*p/3 := by
  rw [iterNode_one, regAbs]
  dsimp only
  rw [abs_of_nonpos (by linarith), abs_of_nonneg (by linarith),
    abs_of_nonneg (by linarith)]
  ring

theorem regAbs_pos_closed (p : ℚ) (hp : 0 < p) (k : ℕ) :
    regAbs (iterNode p (k + 2)) = 97*p/75 + k*(4*p/5) := by
  rw [iterNode_pos_closed p hp k, regAbs]
  dsimp only
  have hk : (0:ℚ) ≤ k := Nat.cast_nonneg k
  rw [abs_of_nonpos (by nlinarith), abs_of_nonpos (by nlinarith),
    abs_of_nonneg (by nlinarith)]
  ring

theorem regAbs_neg_closed (p : ℚ) (hp : p < 0) (k : ℕ) :
    regAbs (iterNode p (k + 1)) = -p * (2/3 + k) := by
  rw [iterNode_neg_closed p hp k, regAbs]
  dsimp only
  have hk : (0:ℚ) ≤ k := Nat.cast_nonneg k
  rw [abs_of_nonneg (by nlinarith), abs_of_nonpos (by nlinarith),
    abs_of_nonpos (by nlinarith)]
  ring

theorem regAbs_zero_pot (k : ℕ) : regAbs (iterNode 0 k) = 0 := by
  rw [iterNode_zero_pot, regAbs]
  norm_num

theorem regAbs_succ_le (p : ℚ) (k : ℕ) :
    regAbs (iterNode p k) ≤ regAbs (iterNode p (k + 1)) := by
  rcases lt_trichotomy p 0 with hp | hp | hp
  · cases k with
    | zero =>
      rw [regAbs_iterNode_zero, regAbs_neg_closed p hp 0]
      push_cast
      nlinarith
    | succ j =>
      rw [regAbs_neg_closed p hp j, regAbs_neg_closed p hp (j+1)]
      have hj : (0:ℚ) ≤ j := Nat.cast_nonneg j
      push_cast
      nlinarith
  · subst hp
    rw [regAbs_zero_pot, regAbs_zero_pot]
  · cases k with
    | zero =>
      rw [regAbs_iterNode_zero, regAbs_pos_one p hp]
      linarith
    | succ j =>
      cases j with
      | zero =>
        rw [regAbs_pos_one p hp, regAbs_pos_closed p hp 0]
        push_cast
        linarith
      | succ i =>
        rw [regAbs_pos_closed p hp i, regAbs_pos_closed p hp (i+1)]
        have hi : (0:ℚ) ≤ i := Nat.cast_nonneg i
        push_cast
        nlinarith

theorem regAbs_mono (p : ℚ) : Monotone (fun k => regAbs (iterNode p k)) :=
  monotone_nat_of_le_succ (regAbs_succ_le p)

theorem regAbs_lb (p : ℚ) (k : ℕ) (hk : 1 ≤ k) :
    2*|p|/3 ≤ regAbs (iterNode p k) := by
  have h1 : 2*|p|/3 ≤ regAbs (iterNode p 1) := by
    rcases lt_trichotomy p 0 with hp | hp | hp
    · rw [regAbs_neg_closed p hp 0, abs_of_neg hp]
      push_cast
      linarith
    · subst hp
      rw [regAbs_zero_pot]
      simp
    · rw [regAbs_pos_one p hp, abs_of_pos hp]
  exact le_trans h1 (regAbs_mono p hk)

theorem sum_map_le_sum_map {l : List String} {f g : String → ℚ}
    (h : ∀ x ∈ l, f x ≤ g x) : (l.map f).sum ≤ (l.map g).sum := by
  induction l with
  | nil => simp
  | cons a rest ih =>
    simp only [List.map_cons, List.sum_cons]
    have h1 := h a (List.mem_cons_self _ _)
    have h2 := ih (fun x hx => h x (List.mem_cons_of_mem _ hx))
    linarith

theorem length_mul_le_sum_map {l : List String} {f : String → ℚ} {b : ℚ}
    (h : ∀ x ∈ l, b ≤ f x) : l.length * b ≤ (l.map f).sum := by
  induction l with
  | nil => simp
  | cons a rest ih =>
    simp only [List.map_cons, List.sum_cons, List.length_cons]
    have h1 := h a (List.mem_cons_self _ _)
    have h2 := ih (fun x hx => h x (List.mem_cons_of_mem _ hx))
    push_cast
    linarith

/-- Exploitability sampled after `t` CFR passes. -/
def exploitAt (gs : GameState) (t : ℕ) : ℚ :=
  calculateExploitability (asmMap (gs.pot : ℚ) (traceN gs t))

theorem exploitAt_zero (gs : GameState) : exploitAt gs 0 = 0 := by
  rw [exploitAt, calcExploit_asm]
  simp [traceN, fod]

theorem exploitAt_nonneg (gs : GameState) (t : ℕ) : 0 ≤ exploitAt gs t :=
  calcExploit_nonneg _

/-- The sequence of sampled exploitabilities is monotone nondecreasing. -/
theorem exploitAt_mono (gs : GameState) {t t' : ℕ} (h : t ≤ t') :
    exploitAt gs t ≤ exploitAt gs t' := by
  rcases Nat.eq_zero_or_pos t with rfl | ht
  · rw [exploitAt_zero]
    exact exploitAt_nonneg gs t'
  · have ht' : 1 ≤ t' := le_trans ht h
    rw [exploitAt, exploitAt, calcExploit_asm, calcExploit_asm,
      fod_traceN gs t ht, fod_traceN gs t' ht']
    by_cases hf : (fod [] (traceOf gs)).length = 0
    · rw [if_pos hf, if_pos hf]
    · rw [if_neg hf, if_neg hf]
      have hnQ : (0:ℚ) < ((fod [] (traceOf gs)).length : ℚ) := by
        exact_mod_cast Nat.pos_of_ne_zero hf
      have hpos : (0:ℚ) < 3 * ((fod [] (traceOf gs)).length : ℚ) := by linarith
      rw [div_le_div_iff_of_pos_right hpos]
      apply sum_map_le_sum_map
      intro k hk
      rw [cnt_traceN, cnt_traceN]
      exact regAbs_mono _ (Nat.mul_le_mul_right _ h)

/-- With at least one player, every sampled exploitability is at least
`2|pot|/9`: for a nonzero integer pot the `0.001` early-stopping threshold
is never reached. -/
theorem exploitAt_lb (gs : GameState) (t : ℕ) (ht : 1 ≤ t)
    (hne : gs.players ≠ []) :
    2*|(gs.pot : ℚ)|/9 ≤ exploitAt gs t := by
  rw [exploitAt, calcExploit_asm, fod_traceN gs t ht]
  have hn0 : 0 < gs.players.length := List.length_pos.mpr hne
  have htr : traceOf gs ≠ [] := by
    apply List.ne_nil_of_length_pos
    rw [traceOf]
    simpa using hn0
  have hfod : (fod [] (traceOf gs)).length ≠ 0 := by
    intro h0
    rw [List.length_eq_zero] at h0
    cases htrc : traceOf gs with
    | nil => exact htr htrc
    | cons a rest =>
      have ha : a ∈ fod [] (traceOf gs) :=
        mem_fod_nil.mpr (by rw [htrc]; exact List.mem_cons_self a rest)
      rw [h0] at ha
      exact absurd ha (List.not_mem_nil a)
  rw [if_neg hfod]
  have hterm : ∀ k ∈ fod [] (traceOf gs),
      2*|(gs.pot:ℚ)|/3 ≤ regAbs (iterNode (gs.pot:ℚ) (cnt k (traceN gs t))) := by
    intro k hk
    apply regAbs_lb
    rw [cnt_traceN]
    have hc : 1 ≤ cnt k (traceOf gs) := mem_iff_cnt_pos.mp (mem_fod_nil.mp hk)
    calc 1 = 1 * 1 := by omega
    _ ≤ t * cnt k (traceOf gs) := Nat.mul_le_mul ht hc
  have hsum := length_mul_le_sum_map hterm
  set n := (fod [] (traceOf gs)).length with hn
  have hnQ : (0:ℚ) < (n : ℚ) := by exact_mod_cast Nat.pos_of_ne_zero hfod
  rw [le_div_iff (by linarith : (0:ℚ) < 3 * (n:ℚ))]
  have hiden : 2*|(gs.pot:ℚ)|/9 * (3*(n:ℚ)) = (n:ℚ) * (2*|(gs.pot:ℚ)|/3) := by
    ring
  linarith

/-! ## Proof infrastructure: the iteration loop -/

/-- The convergence-history invariant: along the loop, every recorded sample
is bounded by every later sampled exploitability, so the recorded history is
nondecreasing. -/
theorem solveLoop_pairwise (gs : GameState) : ∀ (rem i : ℕ) (hist : List ℚ),
    hist.Pairwise (· ≤ ·) → (∀ x ∈ hist, x ≤ exploitAt gs i) →
    ((solveLoop gs i rem (asmMap (gs.pot:ℚ) (traceN gs i)) hist).2.1).Pairwise
      (· ≤ ·) := by
  intro rem
  induction rem with
  | zero => intro i hist h1 h2; exact h1
  | succ rem ih =>
    intro i hist h1 h2
    rw [solveLoop]
    simp only [cfrPass_traceN]
    have hE : calculateExploitability (asmMap (gs.pot:ℚ) (traceN gs (i+1)))
        = exploitAt gs (i+1) := rfl
    rw [hE]
    have hbound : ∀ x ∈ hist ++ [exploitAt gs (i+1)], x ≤ exploitAt gs (i+1) := by
      intro x hx
      rcases List.mem_append.mp hx with hx | hx
      · exact le_trans (h2 x hx) (exploitAt_mono gs (Nat.le_succ i))
      · rw [List.mem_singleton.mp hx]
    have hpw : (hist ++ [exploitAt gs (i+1)]).Pairwise (· ≤ ·) := by
      rw [List.pairwise_append]
      refine ⟨h1, List.pairwise_singleton _ _, ?_⟩
      intro a ha b hb
      rw [List.mem_singleton.mp hb]
      exact le_trans (h2 a ha) (exploitAt_mono gs (Nat.le_succ i))
    by_cases hmod : i % 100 = 0
    · rw [if_pos hmod]
      by_cases hconv : exploitAt gs (i+1) < 1/1000
      · rw [if_pos hconv]
        exact hpw
      · rw [if_neg hconv]
        exact ih (i+1) (hist ++ [exploitAt gs (i+1)]) hpw
          (fun x hx => hbound x hx)
    · rw [if_neg hmod]
      exact ih (i+1) hist h1
        (fun x hx => le_trans (h2 x hx) (exploitAt_mono gs (Nat.le_succ i)))

/-- The samples the loop records between iteration indices `i` and
`i + rem` when the early-stopping threshold is never reached. -/
def samplesIn (gs : GameState) : ℕ → ℕ → List ℚ
  | _, 0 => []
  | i, rem + 1 =>
    if i % 100 = 0 then exploitAt gs (i+1) :: samplesIn gs (i+1) rem
    else samplesIn gs (i+1) rem

/-- When no sample falls below the `0.001` threshold, the loop runs its full
budget and records exactly the every-100th samples. -/
theorem solveLoop_noBreak (gs : GameState)
    (hNB : ∀ t, 1 ≤ t → ¬ exploitAt gs t < 1/1000) :
    ∀ (rem i : ℕ) (hist : List ℚ),
    solveLoop gs i rem (asmMap (gs.pot:ℚ) (traceN gs i)) hist =
      (asmMap (gs.pot:ℚ) (traceN gs (i+rem)), hist ++ samplesIn gs i rem,
        i + rem) := by
  intro rem
  induction rem with
  | zero => intro i hist; simp [solveLoop, samplesIn]
  | succ rem ih =>
    intro i hist
    rw [solveLoop]
    simp only [cfrPass_traceN]
    have hE : calculateExploitability (asmMap (gs.pot:ℚ) (traceN gs (i+1)))
        = exploitAt gs (i+1) := rfl
    rw [hE, samplesIn]
    have harr : i + 1 + rem = i + (rem + 1) := by omega
    by_cases hmod : i % 100 = 0
    · rw [if_pos hmod, if_pos hmod, if_neg (hNB (i+1) (by omega)), ih (i+1)]
      rw [harr, List.append_assoc, List.singleton_append]
    · rw [if_neg hmod, if_neg hmod, ih (i+1), harr]

/-- Whatever the loop does (early break or full budget), the final node map
is the assembled map after the executed number of passes, and at least one
pass executes when the budget is positive. -/
theorem solveLoop_final (gs : GameState) : ∀ (rem i : ℕ) (hist : List ℚ),
    ∃ T hist',
      solveLoop gs i rem (asmMap (gs.pot:ℚ) (traceN gs i)) hist =
        (asmMap (gs.pot:ℚ) (traceN gs T), hist', T) ∧
      i ≤ T ∧ T ≤ i + rem ∧ (1 ≤ rem → i + 1 ≤ T) := by
  intro rem
  induction rem with
  | zero =>
    intro i hist
    exact ⟨i, hist, rfl, le_refl i, by omega, by omega⟩
  | succ rem ih =>
    intro i hist
    rw [solveLoop]
    simp only [cfrPass_traceN]
    by_cases hmod : i % 100 = 0
    · rw [if_pos hmod]
      by_cases hconv :
          calculateExploitability (asmMap (gs.pot:ℚ) (traceN gs (i+1))) < 1/1000
      · rw [if_pos hconv]
        exact ⟨i + 1, _, rfl, by omega, by omega, by omega⟩
      · rw [if_neg hconv]
        obtain ⟨T, hist', heq, h1, h2, h3⟩ := ih (i+1) _
        exact ⟨T, hist', heq, by omega, by omega, by omega⟩
    · rw [if_neg hmod]
      obtain ⟨T, hist', heq, h1, h2, h3⟩ := ih (i+1) _
      exact ⟨T, hist', heq, by omega, by omega, by omega⟩

/-- The per-node normalization performed by `_get_average_strategy`. -/
def normalizeNode (nd : Node) : ActMap :=
  if 0 < nd.strategy_sum.total then
    ⟨nd.strategy_sum.fold / nd.strategy_sum.total,
     nd.strategy_sum.call / nd.strategy_sum.total,
     nd.strategy_sum.raise / nd.strategy_sum.total⟩
  else ⟨1/3, 1/3, 1/3⟩

theorem getAverageStrategy_eq (m : List (String × Node)) :
    getAverageStrategy m = m.map fun kn => (kn.1, normalizeNode kn.2) := rfl

theorem alookup_map_values {α β : Type} (f : α → β) (m : List (String × α))
    (k : String) :
    alookup (m.map fun kv => (kv.1, f kv.2)) k = (alookup m k).map f := by
  induction m with
  | nil => rfl
  | cons kv rest ih =>
    simp only [List.map_cons, alookup]
    by_cases hk : kv.1 = k
    · simp [hk]
    · simp only [if_neg hk, ih]

theorem normalizeNode_total (nd : Node) : (normalizeNode nd).total = 1 := by
  rw [normalizeNode]
  split
  · next h =>
    simp only [ActMap.total] at *
    field_simp
  · simp [ActMap.total]
    norm_num

theorem normalizeNode_nonneg (nd : Node) (h : nd.strategy_sum.Nonneg) :
    (normalizeNode nd).Nonneg := by
  obtain ⟨h1, h2, h3⟩ := h
  rw [normalizeNode]
  split
  · next hpos =>
    exact ⟨div_nonneg h1 hpos.le, div_nonneg h2 hpos.le, div_nonneg h3 hpos.le⟩
  · exact ⟨by norm_num, by norm_num, by norm_num⟩

/-- For a positive pot, the averaged strategy of a node visited at least 3
times puts at least 3/5 on raise. -/
theorem normalizeNode_raise_ge (p : ℚ) (hp : 0 < p) (K : ℕ) (hK : 3 ≤ K) :
    3/5 ≤ (normalizeNode (iterNode p K)).raise := by
  obtain ⟨j, rfl⟩ : ∃ j, K = j + 2 := ⟨K - 2, by omega⟩
  have hj : (1:ℚ) ≤ j := by
    have : 1 ≤ j := by omega
    exact_mod_cast this
  rw [iterNode_pos_closed p hp j, normalizeNode]
  have htot : (ActMap.total ⟨1/3, 8/15, 17/15 + (j:ℚ)⟩) = 2 + j := by
    rw [ActMap.total]
    ring
  dsimp only
  rw [htot, if_pos (by linarith)]
  rw [le_div_iff (by linarith)]
  linarith

/-- For a zero pot, the averaged strategy of any visited node is exactly
uniform. -/
theorem normalizeNode_zero_pot (K : ℕ) (hK : 1 ≤ K) :
    normalizeNode (iterNode 0 K) = ⟨1/3, 1/3, 1/3⟩ := by
  have hKQ : (0:ℚ) < K := by exact_mod_cast hK
  rw [iterNode_zero_pot, normalizeNode]
  have htot : (ActMap.total ⟨(K:ℚ)/3, K/3, K/3⟩) = K := by
    rw [ActMap.total]; ring
  dsimp only
  rw [htot, if_pos hKQ]
  simp only [ActMap.mk.injEq]
  refine ⟨?_, ?_, ?_⟩ <;> · field_simp; ring

/-! ## Proof infrastructure: solve-level characterizations -/

theorem alookup_asm (p : ℚ) (L : List String) (k : String) :
    alookup (asmMap p L) k =
      if k ∈ L then some (iterNode p (cnt k L)) else none := by
  rw [asmMap, alookup_map_keys]
  by_cases h : k ∈ L
  · rw [if_pos (mem_fod_nil.mpr h), if_pos h]
  · rw [if_neg (fun hh => h (mem_fod_nil.mp hh)), if_neg h]

theorem mem_traceOf (gs : GameState) (j : ℕ) (hj : j < gs.players.length) :
    generateInfoSetN gs j ∈ traceOf gs := by
  rw [traceOf]
  exact List.mem_map_of_mem _ (List.mem_range.mpr hj)

theorem solveStrategy_zero (gs : GameState) : solveStrategy gs 0 = none := by
  rw [solveStrategy, if_pos rfl]

theorem solveStrategy_isSome (gs : GameState) (N : ℕ) (hN : 1 ≤ N) :
    ∃ r, solveStrategy gs N = some r := by
  rw [solveStrategy, if_neg (by omega)]
  exact ⟨_, rfl⟩

theorem solveStrategy_pos (gs : GameState) (N : ℕ) (hN : 1 ≤ N) :
    solveStrategy gs N = some
      { strategy := getAverageStrategy (solveLoop gs 0 N [] []).1,
        exploitability := ((solveLoop gs 0 N [] []).2.1.getLast?).getD 0,
        iterations := (solveLoop gs 0 N [] []).2.2,
        convergence_history := (solveLoop gs 0 N [] []).2.1 } := by
  rw [solveStrategy, if_neg (by omega)]

/-- `solveLoop` depends on the game state only through `cfrPass`. -/
theorem solveLoop_congr (gs gs' : GameState)
    (hpass : ∀ m, cfrPass gs m = cfrPass gs' m) :
    ∀ (rem i : ℕ) (m : List (String × Node)) (hist : List ℚ),
      solveLoop gs i rem m hist = solveLoop gs' i rem m hist := by
  intro rem
  induction rem with
  | zero => intro i m hist; rfl
  | succ rem ih =>
    intro i m hist
    rw [solveLoop, solveLoop, hpass]
    by_cases hmod : i % 100 = 0
    · rw [if_pos hmod, if_pos hmod]
      by_cases hconv : calculateExploitability (cfrPass gs' m) < 1/1000
      · rw [if_pos hconv, if_pos hconv]
      · rw [if_neg hconv, if_neg hconv, ih]
    · rw [if_neg hmod, if_neg hmod, ih]

theorem samplesIn_add (gs : GameState) (a : ℕ) : ∀ (i b : ℕ),
    samplesIn gs i (a + b) = samplesIn gs i a ++ samplesIn gs (i + a) b := by
  induction a with
  | zero => intro i b; simp [samplesIn]
  | succ a ih =>
    intro i b
    have h1 : a + 1 + b = (a + b) + 1 := by omega
    rw [h1, samplesIn, samplesIn, ih (i+1)]
    have h2 : i + 1 + a = i + (a + 1) := by omega
    rw [h2]
    by_cases hmod : i % 100 = 0
    · rw [if_pos hmod, if_pos hmod, List.cons_append]
    · rw [if_neg hmod, if_neg hmod]

theorem samplesIn_empty (gs : GameState) : ∀ (rem i : ℕ),
    (∀ t, i ≤ t → t < i + rem → t % 100 ≠ 0) → samplesIn gs i rem = [] := by
  intro rem
  induction rem with
  | zero => intro i h; rfl
  | succ rem ih =>
    intro i h
    rw [samplesIn, if_neg (h i (le_refl i) (by omega))]
    exact ih (i+1) (fun t ht1 ht2 => h t (by omega) (by omega))

theorem samplesIn_single (gs : GameState) (i : ℕ) (h : i % 100 = 0) :
    samplesIn gs i 1 = [exploitAt gs (i+1)] := by
  rw [samplesIn, if_pos h, samplesIn]

/-- With a single player the sampled exploitability is the single node's
mean absolute regret. -/
theorem exploit_single (gs : GameState) (h1 : gs.players.length = 1)
    (t : ℕ) (ht : 1 ≤ t) :
    exploitAt gs t = regAbs (iterNode (gs.pot:ℚ) t) / 3 := by
  have htr : traceOf gs = [generateInfoSetN gs 0] := by
    rw [traceOf, h1]
    rfl
  rw [exploitAt, calcExploit_asm, fod_traceN gs t ht, htr]
  have hfod : fod [] [generateInfoSetN gs 0] = [generateInfoSetN gs 0] := by
    simp [fod]
  rw [hfod]
  have hcnt : cnt (generateInfoSetN gs 0) (traceN gs t) = t := by
    rw [cnt_traceN, htr, cnt_single, if_pos rfl]
    omega
  simp only [List.length_cons, List.length_nil, List.map_cons, List.map_nil,
    List.sum_cons, List.sum_nil, hcnt]
  rw [if_neg (by omega)]
  push_cast
  ring

/-- When the very first sample is zero the loop stops immediately. -/
theorem solve_first_sample_zero (gs : GameState) (N : ℕ)
    (hE : exploitAt gs 1 = 0) (hN : 1 ≤ N) :
    solveStrategy gs N = some
      { strategy := getAverageStrategy (asmMap (gs.pot:ℚ) (traceN gs 1)),
        exploitability := 0, iterations := 1, convergence_history := [0] } := by
  obtain ⟨N', rfl⟩ : ∃ N', N = N' + 1 := ⟨N - 1, by omega⟩
  rw [solveStrategy, if_neg (by omega)]
  have hstep : solveLoop gs 0 (N' + 1) (asmMap (gs.pot:ℚ) (traceN gs 0)) []
      = (asmMap (gs.pot:ℚ) (traceN gs 1), [0], 1) := by
    rw [solveLoop]
    simp only [cfrPass_traceN, Nat.zero_add]
    have hE' : calculateExploitability (asmMap (gs.pot:ℚ) (traceN gs 1)) = 0 := hE
    rw [hE']
    norm_num
  have h0 : solveLoop gs 0 (N' + 1) ([] : List (String × Node)) [] =
      solveLoop gs 0 (N' + 1) (asmMap (gs.pot:ℚ) (traceN gs 0)) [] := rfl
  rw [h0, hstep]
  rfl

theorem exploitAt_pot_zero (gs : GameState) (hpot : gs.pot = 0) (t : ℕ) :
    exploitAt gs t = 0 := by
  rw [exploitAt, calcExploit_asm]
  split
  · rfl
  · have hsum : ((fod [] (traceN gs t)).map
        (fun k => regAbs (iterNode (gs.pot:ℚ) (cnt k (traceN gs t))))).sum = 0 := by
      apply List.sum_eq_zero
      intro x hx
      rcases List.mem_map.mp hx with ⟨k, hk, rfl⟩
      have hq : (gs.pot : ℚ) = 0 := by rw [hpot]; norm_num
      rw [hq, regAbs_zero_pot]
    rw [hsum, zero_div]

/-- A zero pot zeroes all regrets, so the solver stops at the very first
sample. -/
theorem solve_pot_zero (gs : GameState) (N : ℕ) (hpot : gs.pot = 0)
    (hN : 1 ≤ N) :
    solveStrategy gs N = some
      { strategy := getAverageStrategy (asmMap (gs.pot:ℚ) (traceN gs 1)),
        exploitability := 0, iterations := 1, convergence_history := [0] } :=
  solve_first_sample_zero gs N (exploitAt_pot_zero gs hpot 1) hN

/-- With no players there are no nodes at all: exploitability 0, empty
strategy map, immediate stop. -/
theorem solve_no_nodes (gs : GameState) (N : ℕ) (hne : gs.players = [])
    (hN : 1 ≤ N) :
    solveStrategy gs N = some
      { strategy := [], exploitability := 0, iterations := 1,
        convergence_history := [0] } := by
  have htr : traceOf gs = [] := by
    rw [traceOf, hne]
    rfl
  have htr1 : traceN gs 1 = [] := by
    show traceN gs 0 ++ traceOf gs = []
    rw [htr]
    rfl
  have hE : exploitAt gs 1 = 0 := by
    rw [exploitAt, htr1]
    rfl
  rw [solve_first_sample_zero gs N hE hN, htr1]
  rfl

/-- The average strategy after one pass with a single player. -/
theorem avg_traceN_one_single (gs : GameState) (h1 : gs.players.length = 1) :
    getAverageStrategy (asmMap (gs.pot:ℚ) (traceN gs 1)) =
      [(generateInfoSetN gs 0, normalizeNode (iterNode (gs.pot:ℚ) 1))] := by
  have htr1 : traceN gs 1 = [generateInfoSetN gs 0] := by
    show traceN gs 0 ++ traceOf gs = _
    rw [traceOf, h1]
    rfl
  rw [htr1, getAverageStrategy_eq, asmMap]
  simp [fod, cnt]

/-- For a nonzero integer pot (and at least one player) the solver never
reaches the early-stopping threshold, so it consumes the whole budget. -/
theorem solveStrategy_noBreak (gs : GameState) (N : ℕ) (hN : 1 ≤ N)
    (hne : gs.players ≠ []) (hpot : gs.pot ≠ 0) :
    solveStrategy gs N = some
      { strategy := getAverageStrategy (asmMap (gs.pot:ℚ) (traceN gs N)),
        exploitability := ((samplesIn gs 0 N).getLast?).getD 0,
        iterations := N,
        convergence_history := samplesIn gs 0 N } := by
  have hNB : ∀ t, 1 ≤ t → ¬ exploitAt gs t < 1/1000 := by
    intro t ht hlt
    have hlb := exploitAt_lb gs t ht hne
    have habs : (1:ℚ) ≤ |(gs.pot : ℚ)| := by
      have h1 : 1 ≤ |gs.pot| := Int.one_le_abs hpot
      have h2 : ((|gs.pot| : ℤ) : ℚ) = |(gs.pot : ℚ)| := by
        push_cast
        rfl
      rw [← h2]
      exact_mod_cast h1
    linarith
  rw [solveStrategy, if_neg (by omega)]
  have h0 : solveLoop gs 0 N ([] : List (String × Node)) [] =
      solveLoop gs 0 N (asmMap (gs.pot:ℚ) (traceN gs 0)) [] := rfl
  rw [h0, solveLoop_noBreak gs hNB N 0 []]
  simp

theorem pyIndex_eq_get {α : Type} (l : List α) (i : ℤ) (x : α)
    (h : pyIndex l i = some x) : ∃ j, l.get? j = some x := by
  rw [pyIndex] at h
  split at h
  · exact ⟨i.toNat, h⟩
  · split at h
    · exact ⟨(i + l.length).toNat, h⟩
    · simp at h

/-- A successful endpoint-side key derivation always produces the info-set
key of some valid player index. -/
theorem generateInfoSet_eq (gs : GameState) (i : ℤ) (k : String)
    (h : generateInfoSet gs i = some k) :
    ∃ j, j < gs.players.length ∧ k = generateInfoSetN gs j := by
  rw [generateInfoSet] at h
  cases hp : pyIndex gs.players i with
  | none => rw [hp] at h; simp at h
  | some pd =>
    rw [hp] at h
    simp only [Option.map_some'] at h
    obtain ⟨j, hj⟩ := pyIndex_eq_get _ _ _ hp
    obtain ⟨hjlen, -⟩ := List.get?_eq_some.mp hj
    refine ⟨j, hjlen, ?_⟩
    have h' := Option.some.inj h
    rw [← h', generateInfoSetN, hj]
    rfl

/-- For a negative pot the averaged strategy puts only the initial uniform
share on raise. -/
theorem normalizeNode_raise_neg (p : ℚ) (hp : p < 0) (K : ℕ) (hK : 1 ≤ K) :
    (normalizeNode (iterNode p K)).raise = (1/3) / K := by
  obtain ⟨j, rfl⟩ : ∃ j, K = j + 1 := ⟨K - 1, by omega⟩
  have hj : (0:ℚ) ≤ j := Nat.cast_nonneg j
  rw [iterNode_neg_closed p hp j, normalizeNode]
  have htot : (ActMap.total ⟨1/3 + (j:ℚ), 1/3, 1/3⟩) = j + 1 := by
    rw [ActMap.total]
    ring
  dsimp only
  rw [htot, if_pos (by linarith)]
  push_cast
  ring

/-! ## Concrete states used by counterexamples and witnesses -/

/-- One-player state, zero pot. -/
def gsW : GameState := ⟨"preflop", 0, "", [⟨"AhAs", 0, "BTN"⟩], 0, [], false⟩

/-- One-player state, pot 1, pocket aces, no prior aggression. -/
def gsPos : GameState := ⟨"preflop", 1, "", [⟨"AhAs", 5, "BTN"⟩], 0, [], false⟩

/-- One-player state, negative pot, pocket aces, no prior aggression. -/
def gsNeg : GameState := ⟨"preflop", -1, "", [⟨"AhAs", 0, "BTN"⟩], 0, [], false⟩

/-- A terminal-flagged state with a positive pot. -/
def gsTerm : GameState :=
  ⟨"flop", 5, "Kh7s2c", [⟨"AhAs", 0, "BTN"⟩], 0, [], true⟩

/-- A terminal-flagged state with no players. -/
def gsEmpty : GameState := ⟨"preflop", 7, "", [], 0, [], true⟩

/-- Two-player state. -/
def gsA : GameState :=
  ⟨"turn", 40, "Ah7d2c9s", [⟨"KsKd", 10, "BTN"⟩, ⟨"QhJh", 10, "BB"⟩], 0, [],
    false⟩

/-- `gsA` with the non-acting player's hole cards changed. -/
def gsB : GameState :=
  ⟨"turn", 40, "Ah7d2c9s", [⟨"KsKd", 10, "BTN"⟩, ⟨"7c2d", 10, "BB"⟩], 0, [],
    false⟩

theorem traceOf_one (gs : GameState) (h1 : gs.players.length = 1) :
    traceOf gs = [generateInfoSetN gs 0] := by
  rw [traceOf, h1]
  rfl

/-! ## The claims -/

theorem processBatchLoop_counts (iterations : ℕ) (cr rc : Bool)
    (hN : 1 ≤ iterations) :
    ∀ (l : List GameState) (st : BatchState),
      (processBatchLoop iterations cr rc l st).attempted
          = st.attempted + l.length ∧
      (processBatchLoop iterations cr rc l st).completed
          = st.completed + l.length := by
  intro l
  induction l with
  | nil =>
    intro st
    exact ⟨by simp [processBatchLoop], by simp [processBatchLoop]⟩
  | cons s rest ih =>
    intro st
    obtain ⟨r, hr⟩ := solveStrategy_isSome s iterations hN
    simp only [processBatchLoop, hr]
    constructor
    · rw [(ih _).1]
      simp only [List.length_cons]
      omega
    · rw [(ih _).2]
      simp only [List.length_cons]
      omega

/-- C1 (amended): an exception while solving one scenario is caught at the
job level and logged; recorded progress is not rolled back and nothing
propagates to the caller, but the batch stops at the failing scenario —
the remaining scenarios are never attempted.  (A scenario solve raises
exactly when `iterations = 0`; with a positive budget every scenario is
attempted and completed.) -/
theorem C1_batch_stops_at_failure :
    ∀ (scenarios : List GameState) (iterations : ℕ) (cr rc : Bool)
      (cache : String → Option BatchCacheVal),
      (1 ≤ iterations →
        (processBatchBackground scenarios iterations cr rc cache).attempted
            = scenarios.length ∧
        (processBatchBackground scenarios iterations cr rc cache).completed
            = scenarios.length) ∧
      (iterations = 0 → scenarios ≠ [] →
        (processBatchBackground scenarios iterations cr rc cache).attempted
            = 1 ∧
        (processBatchBackground scenarios iterations cr rc cache).completed
            = 0) := by
  intro scenarios iterations cr rc cache
  constructor
  · intro hN
    have h := processBatchLoop_counts iterations cr rc hN scenarios
      { completed := 0, total := scenarios.length, progress := none,
        cache := cache, attempted := 0, convergence_rates := [] }
    exact ⟨by rw [processBatchBackground, h.1]; simp,
      by rw [processBatchBackground, h.2]; simp⟩
  · intro h0 hne
    subst h0
    cases scenarios with
    | nil => exact absurd rfl hne
    | cons s rest =>
      constructor
      · rw [processBatchBackground]
        simp only [processBatchLoop, solveStrategy_zero]
      · rw [processBatchBackground]
        simp only [processBatchLoop, solveStrategy_zero]

/-- C1 witness: a batch of one scenario at a positive budget completes it. -/
theorem C1_witness :
    (processBatchBackground [gsW] 1 true true (fun _ => none)).attempted = 1 ∧
    (processBatchBackground [gsW] 1 true true (fun _ => none)).completed = 1 :=
  (C1_batch_stops_at_failure [gsW] 1 true true (fun _ => none)).1 (by omega)

/-- C1 counterexample: in a two-scenario batch whose first solve raises
(`iterations = 0`), only one scenario is ever attempted — the claimed
"proceeds to solve every remaining scenario of the job" is false. -/
theorem C1_counterexample :
    (processBatchBackground [gsW, gsPos] 0 true true (fun _ => none)).attempted
        = 1 ∧
    [gsW, gsPos].length = 2 ∧
    (processBatchBackground [gsW, gsPos] 0 true true (fun _ => none)).attempted
        ≠ [gsW, gsPos].length := by
  refine ⟨?_, rfl, ?_⟩
  · rw [processBatchBackground]
    simp only [processBatchLoop, solveStrategy_zero]
  · rw [processBatchBackground]
    simp only [processBatchLoop, solveStrategy_zero]
    simp

/-- C4 counterexample: a root with the terminal flag set is solved like any
other state; with pot 5 and budget 1 it reports exploitability `10/9`, not
the claimed exactly `1.0`. -/
theorem C4_counterexample :
    gsTerm.is_terminal = true ∧
    (solveStrategy gsTerm 1).map SolveResult.exploitability = some (10/9) ∧
    (10/9 : ℚ) ≠ 1 := by
  have hsamp : samplesIn gsTerm 0 1 = [exploitAt gsTerm 1] :=
    samplesIn_single gsTerm 0 (by norm_num)
  have hE : exploitAt gsTerm 1 = 10/9 := by
    rw [exploit_single gsTerm rfl 1 (by omega)]
    have hq : (gsTerm.pot : ℚ) = 5 := by norm_num [gsTerm]
    rw [hq, regAbs_pos_one 5 (by norm_num)]
    norm_num
  refine ⟨rfl, ?_, by norm_num⟩
  rw [solveStrategy_noBreak gsTerm 1 (by omega) (by simp [gsTerm])
    (by simp [gsTerm])]
  simp only [Option.map_some']
  simp only [hsamp, hE, List.getLast?_singleton, Option.getD_some]

/-- C4 (amended): the terminal flag is not special-cased — the solver
ignores `is_terminal` entirely; and the genuinely degenerate root with no
reachable decision points (no players) yields an empty strategy map,
exploitability exactly 0.0 (not 1.0), one iteration and history `[0.0]` —
there is no uniform-fallback-with-exploitability-1.0 path. -/
theorem C4_terminal_not_special :
    (∀ (gs : GameState) (b : Bool) (N : ℕ),
      solveStrategy { gs with is_terminal := b } N = solveStrategy gs N) ∧
    (∀ (gs : GameState) (N : ℕ), gs.players = [] → 1 ≤ N →
      solveStrategy gs N = some
        { strategy := [], exploitability := 0, iterations := 1,
          convergence_history := [0] }) := by
  constructor
  · intro gs b N
    obtain ⟨s, p, c, pl, cp, hh, t⟩ := gs
    show solveStrategy ⟨s, p, c, pl, cp, hh, b⟩ N
        = solveStrategy ⟨s, p, c, pl, cp, hh, t⟩ N
    rw [solveStrategy, solveStrategy]
    by_cases hN : N = 0
    · rw [if_pos hN, if_pos hN]
    · rw [if_neg hN, if_neg hN]
      have hpass : ∀ m, cfrPass ⟨s, p, c, pl, cp, hh, b⟩ m
          = cfrPass ⟨s, p, c, pl, cp, hh, t⟩ m := fun m => rfl
      rw [solveLoop_congr _ _ hpass N 0 [] []]
  · intro gs N h1 h2
    exact solve_no_nodes gs N h1 h2

/-- C4 witness: a terminal-flagged, player-less root. -/
theorem C4_witness :
    solveStrategy gsEmpty 3 = some
      { strategy := [], exploitability := 0, iterations := 1,
        convergence_history := [0] } :=
  C4_terminal_not_special.2 gsEmpty 3 rfl (by omega)

/-- C6 (confirmed): the cache write is performed exactly when the result's
exploitability is below the `0.01` threshold (and the store is reachable);
otherwise it is a no-op, so a previously absent key still reads back as
`None`. -/
theorem C6_cache_write_gated :
    ∀ (α : Type) (connected : Bool) (e : ℚ) (cache : String → Option α)
      (key : String) (v : α),
      (1/100 ≤ e →
        cachePutGated connected e cache key v = cache ∧
        (cacheGet cache key = none →
          cacheGet (cachePutGated connected e cache key v) key = none)) ∧
      (connected = true → e < 1/100 →
        cacheGet (cachePutGated connected e cache key v) key = some v) := by
  intro α connected e cache key v
  constructor
  · intro he
    have hcond : ¬ (connected = true ∧ e < 1/100) := by
      rintro ⟨-, hlt⟩
      linarith
    rw [cachePutGated, if_neg hcond]
    exact ⟨rfl, fun h => h⟩
  · intro hc hlt
    rw [cachePutGated, if_pos ⟨hc, hlt⟩]
    simp [cacheGet]

/-- C6 witness: an unconverged result (exploitability 1/2 ≥ 0.01) is not
cached and the key stays absent. -/
theorem C6_witness :
    cachePutGated true (1/2) (fun _ => (none : Option ℕ)) "k" 7
        = (fun _ => (none : Option ℕ)) ∧
    (cacheGet (fun _ => (none : Option ℕ)) "k" = none →
      cacheGet (cachePutGated true (1/2) (fun _ => (none : Option ℕ)) "k" 7)
        "k" = none) :=
  (C6_cache_write_gated ℕ true (1/2) (fun _ => none) "k" 7).1 (by norm_num)

/-- C7 (confirmed): the info-set key is a pure function of street, the
acting player's own hole cards, the community cards and the pot — two
states that differ only in other players' private cards generate the same
key for the acting player. -/
theorem C7_info_set_no_opponent_leak :
    ∀ (gs1 gs2 : GameState) (j : ℕ),
      gs1.street = gs2.street →
      gs1.community_cards = gs2.community_cards →
      gs1.pot = gs2.pot →
      ((gs1.players.get? j).getD ⟨"", 0, ""⟩).holeCards
          = ((gs2.players.get? j).getD ⟨"", 0, ""⟩).holeCards →
      generateInfoSetN gs1 j = generateInfoSetN gs2 j := by
  intro gs1 gs2 j h1 h2 h3 h4
  simp only [generateInfoSetN]
  rw [h1, h2, h3, h4]

/-- C7 witness: changing only the non-acting player's hole cards leaves the
acting player's key unchanged. -/
theorem C7_witness : generateInfoSetN gsA 0 = generateInfoSetN gsB 0 :=
  C7_info_set_no_opponent_leak gsA gsB 0 rfl rfl rfl rfl

/-- C8 counterexample: with a negative pot that exactly offsets the call
amount the code divides by zero (`ZeroDivisionError`), so "the computation
never divides by zero" fails as a universal statement. -/
theorem C8_counterexample : calculatePotOdds (-1) 1 = none := by
  rw [calculatePotOdds, if_neg (by omega), if_pos (by norm_num)]

/-- C8 (amended): call amounts are always nonnegative, and for every
nonnegative pot, pot odds are exactly 0 when the call amount is 0 (no
division is performed) and `call/(pot+call)` otherwise, with a provably
nonzero denominator. -/
theorem C8_pot_odds :
    (∀ gs : GameState, 0 ≤ getCallAmount gs) ∧
    (∀ (pot call : ℤ), 0 ≤ pot → 0 ≤ call →
      (call = 0 → calculatePotOdds pot call = some 0) ∧
      (call ≠ 0 → ((pot:ℚ) + (call:ℚ)) ≠ 0 ∧
        calculatePotOdds pot call
          = some ((call:ℚ) / ((pot:ℚ) + (call:ℚ))))) := by
  constructor
  · intro gs
    rw [getCallAmount]
    split
    · exact le_max_left _ _
    · exact le_refl 0
  · intro pot call hpot hcall
    constructor
    · intro h
      rw [calculatePotOdds, if_pos h]
    · intro h
      have hc : (0:ℚ) < (call:ℚ) := by
        have h1 : 0 < call := lt_of_le_of_ne hcall (Ne.symm h)
        exact_mod_cast h1
      have hp : (0:ℚ) ≤ (pot:ℚ) := by exact_mod_cast hpot
      have hden : (0:ℚ) < (pot:ℚ) + (call:ℚ) := by linarith
      exact ⟨ne_of_gt hden,
        by rw [calculatePotOdds, if_neg h, if_neg (ne_of_gt hden)]⟩

/-- C8 witness: pot 10, call 5 gives odds 5/15 with a nonzero denominator;
call 0 gives exactly 0. -/
theorem C8_witness :
    calculatePotOdds 10 5 = some ((5:ℚ) / ((10:ℚ) + (5:ℚ))) ∧
    calculatePotOdds 10 0 = some 0 :=
  ⟨((C8_pot_odds.2 10 5 (by norm_num) (by norm_num)).2 (by norm_num)).2,
   (C8_pot_odds.2 10 0 (by norm_num) (by norm_num)).1 rfl⟩

/-- C2 (confirmed): regret matching always returns a distribution over the
3 actions that sums to 1 (well within 1e-9, the arithmetic is exact here)
with no negative entries, and so does every per-info-set distribution of
the averaged strategy returned by a successful solve. -/
theorem C2_distributions_are_probabilities :
    (∀ nd : Node, |(getStrategy nd).total - 1| ≤ 1/1000000000 ∧
      (getStrategy nd).Nonneg) ∧
    (∀ (gs : GameState) (N : ℕ) (r : SolveResult),
      solveStrategy gs N = some r →
      ∀ kd ∈ r.strategy, |kd.2.total - 1| ≤ 1/1000000000 ∧ kd.2.Nonneg) := by
  constructor
  · intro nd
    rw [getStrategy_total]
    exact ⟨by norm_num, getStrategy_nonneg nd⟩
  · intro gs N r hr kd hkd
    rcases Nat.eq_zero_or_pos N with rfl | hN
    · rw [solveStrategy_zero] at hr
      exact absurd hr (by simp)
    · rw [solveStrategy_pos gs N hN] at hr
      have hr' := Option.some.inj hr
      rw [← hr'] at hkd
      obtain ⟨T, hist', heq, hT1, hT2, hT3⟩ := solveLoop_final gs N 0 []
      have heq' : solveLoop gs 0 N [] [] =
          (asmMap (gs.pot:ℚ) (traceN gs T), hist', T) := heq
      rw [heq'] at hkd
      dsimp only at hkd
      rw [getAverageStrategy_eq] at hkd
      rcases List.mem_map.mp hkd with ⟨kn, hkn, rfl⟩
      rw [asmMap] at hkn
      rcases List.mem_map.mp hkn with ⟨k, hk, rfl⟩
      dsimp only
      rw [normalizeNode_total]
      exact ⟨by norm_num, normalizeNode_nonneg _ (iterNode_ssum_nonneg _ _)⟩

/-- C2 witness: the uniform distribution produced for the zero-pot solve. -/
theorem C2_witness :
    |((⟨1/3, 1/3, 1/3⟩ : ActMap).total) - 1| ≤ 1/1000000000 ∧
    (⟨1/3, 1/3, 1/3⟩ : ActMap).Nonneg := by
  have hmem : (generateInfoSetN gsW 0, (⟨1/3, 1/3, 1/3⟩ : ActMap)) ∈
      getAverageStrategy (asmMap (gsW.pot : ℚ) (traceN gsW 1)) := by
    rw [avg_traceN_one_single gsW rfl]
    rw [show (gsW.pot : ℚ) = 0 from by norm_num [gsW]]
    rw [normalizeNode_zero_pot 1 (by omega)]
    exact List.mem_singleton_self _
  exact C2_distributions_are_probabilities.2 gsW 1
    { strategy := getAverageStrategy (asmMap (gsW.pot : ℚ) (traceN gsW 1)),
      exploitability := 0, iterations := 1, convergence_history := [0] }
    (solve_pot_zero gsW 1 rfl (by omega))
    (generateInfoSetN gsW 0, (⟨1/3, 1/3, 1/3⟩ : ActMap)) hmem

/-- C3 (amended): the sampled exploitability sequence recorded in
`convergence_history` is nondecreasing — each later sample is greater
than or equal to each earlier one (the accumulated absolute regrets can
only grow under this update rule), the opposite direction of the claimed
non-increase. -/
theorem C3_convergence_history_nondecreasing :
    ∀ (gs : GameState) (N : ℕ) (r : SolveResult),
      solveStrategy gs N = some r →
      r.convergence_history.Pairwise (· ≤ ·) := by
  intro gs N r hr
  rcases Nat.eq_zero_or_pos N with rfl | hN
  · rw [solveStrategy_zero] at hr
    exact absurd hr (by simp)
  · rw [solveStrategy_pos gs N hN] at hr
    have hr' := Option.some.inj hr
    rw [← hr']
    dsimp only
    have hpw := solveLoop_pairwise gs N 0 [] List.Pairwise.nil (by simp)
    exact hpw

/-- C3 witness: the single-sample history of an immediately converged
solve. -/
theorem C3_witness :
    (SolveResult.convergence_history
      { strategy := getAverageStrategy (asmMap (gsW.pot : ℚ) (traceN gsW 1)),
        exploitability := 0, iterations := 1,
        convergence_history := [0] }).Pairwise (· ≤ ·) :=
  C3_convergence_history_nondecreasing gsW 1 _
    (solve_pot_zero gsW 1 rfl (by omega))

/-- C3 counterexample: with pot 1 and budget 101 the recorded history is
`[2/9, 6037/225]`, which strictly increases — the claimed non-increasing
order is false. -/
theorem C3_counterexample :
    (solveStrategy gsPos 101).map SolveResult.convergence_history
        = some [2/9, 6037/225] ∧
    ¬ List.Pairwise (fun a b : ℚ => b ≤ a) [2/9, (6037:ℚ)/225] := by
  have hq : (gsPos.pot : ℚ) = 1 := by norm_num [gsPos]
  have hE1 : exploitAt gsPos 1 = 2/9 := by
    rw [exploit_single gsPos rfl 1 (by omega), hq,
      regAbs_pos_one 1 (by norm_num)]
    norm_num
  have hE101 : exploitAt gsPos 101 = 6037/225 := by
    rw [exploit_single gsPos rfl 101 (by omega), hq,
      show (101:ℕ) = 99 + 2 from by norm_num,
      regAbs_pos_closed 1 (by norm_num) 99]
    norm_num
  have hsamp : samplesIn gsPos 0 101 = [2/9, 6037/225] := by
    rw [show (101:ℕ) = 1 + 100 from by norm_num, samplesIn_add,
      samplesIn_single gsPos 0 (by norm_num)]
    rw [show (100:ℕ) = 99 + 1 from by norm_num, samplesIn_add,
      samplesIn_empty gsPos 99 (0+1) (by intro t h1 h2; omega),
      samplesIn_single gsPos (0+1+99) (by norm_num)]
    rw [hE1]
    norm_num
    rw [hE101]
  constructor
  · rw [solveStrategy_noBreak gsPos 101 (by omega) (by simp [gsPos])
      (by simp [gsPos])]
    simp only [Option.map_some']
    rw [hsamp]
  · intro h
    rcases List.pairwise_cons.mp h with ⟨hh, -⟩
    have hc := hh (6037/225) (List.mem_singleton_self _)
    norm_num at hc

/-- C5 (amended): a lookup whose info-set key is absent substitutes the
near-uniform prior `{fold: 0.33, call: 0.33, raise: 0.34}` (which sums to
1) rather than failing — but it is not the exact uniform 1/3 prior, the
confidence formula is the same `clamp(1 - exploitability)` either way, and
in fact whenever the endpoint's key derivation succeeds the key is present
in the returned strategy map, so the fallback is never exercised
end-to-end. -/
theorem C5_missing_info_set_fallback :
    (∀ (m : List (String × ActMap)) (k : String), alookup m k = none →
      lookupStrategyData m k = ⟨33/100, 33/100, 34/100⟩ ∧
      (lookupStrategyData m k).total = 1) ∧
    (∀ (gs : GameState) (N : ℕ) (r : SolveResult) (k : String),
      solveStrategy gs N = some r →
      generateInfoSet gs gs.current_player = some k →
      ∃ d, alookup r.strategy k = some d) := by
  constructor
  · intro m k h
    rw [lookupStrategyData, h]
    constructor
    · rfl
    · rw [ActMap.total]
      norm_num
  · intro gs N r k hr hk
    rcases Nat.eq_zero_or_pos N with rfl | hN
    · rw [solveStrategy_zero] at hr
      exact absurd hr (by simp)
    · obtain ⟨j, hj, rfl⟩ := generateInfoSet_eq gs _ _ hk
      rw [solveStrategy_pos gs N hN] at hr
      have hr' := Option.some.inj hr
      rw [← hr']
      dsimp only
      obtain ⟨T, hist', heq, hT1, hT2, hT3⟩ := solveLoop_final gs N 0 []
      have heq' : solveLoop gs 0 N [] [] =
          (asmMap (gs.pot:ℚ) (traceN gs T), hist', T) := heq
      rw [heq']
      dsimp only
      rw [getAverageStrategy_eq, alookup_map_values, alookup_asm,
        if_pos (traceOf_subset_traceN gs T (hT3 hN) _ (mem_traceOf gs j hj))]
      exact ⟨_, rfl⟩

/-- C5 witness: the empty map yields the near-uniform fallback. -/
theorem C5_witness :
    lookupStrategyData [] "flop|AhAs|Kh7s2c|40" = ⟨33/100, 33/100, 34/100⟩ ∧
    (lookupStrategyData [] "flop|AhAs|Kh7s2c|40").total = 1 :=
  C5_missing_info_set_fallback.1 [] "flop|AhAs|Kh7s2c|40" rfl

/-- C5 counterexample: the substituted prior is `{0.33, 0.33, 0.34}`, not
the claimed uniform `1/3` per action, and the confidence of a substituted
result is computed by the very same formula as a visited one, so it is not
strictly lower. -/
theorem C5_counterexample :
    alookup ([] : List (String × ActMap)) "preflop|AhAs||10" = none ∧
    lookupStrategyData [] "preflop|AhAs||10" = ⟨33/100, 33/100, 34/100⟩ ∧
    lookupStrategyData [] "preflop|AhAs||10" ≠ (⟨1/3, 1/3, 1/3⟩ : ActMap) ∧
    ¬ confidenceOf (1/2) < confidenceOf (1/2) := by
  refine ⟨rfl, rfl, ?_, lt_irrefl _⟩
  intro h
  have hf := congrArg ActMap.fold h
  rw [show (lookupStrategyData [] "preflop|AhAs||10").fold = 33/100 from rfl]
    at hf
  norm_num at hf

/-- C9 (amended): for a positive pot (the claim said only nonzero), any
preflop state with pocket aces and no prior aggression solved with at
least 500 iterations puts at least 0.6 probability mass on raise in the
averaged strategy of the acting player's info set.  (The solver's
heuristic utilities make raise dominant for every positive pot.) -/
theorem C9_aces_prefer_raise :
    ∀ (gs : GameState) (N : ℕ) (r : SolveResult) (j : ℕ),
      gs.street = "preflop" →
      (∀ e ∈ gs.history, e.action ≠ "raise" ∧ e.action ≠ "bet") →
      1 ≤ gs.pot → 500 ≤ N →
      j < gs.players.length →
      gs.current_player = (j : ℤ) →
      ((gs.players.get? j).getD ⟨"", 0, ""⟩).holeCards = "AhAs" →
      solveStrategy gs N = some r →
      ∃ d, alookup r.strategy (generateInfoSetN gs j) = some d ∧
        3/5 ≤ d.raise := by
  intro gs N r j hstreet hhist hpot hN hj hcur haces hr
  have hne : gs.players ≠ [] := by
    intro h
    rw [h] at hj
    simp at hj
  have hp0 : gs.pot ≠ 0 := by omega
  rw [solveStrategy_noBreak gs N (by omega) hne hp0] at hr
  have hr' := Option.some.inj hr
  rw [← hr']
  dsimp only
  rw [getAverageStrategy_eq, alookup_map_values, alookup_asm,
    if_pos (traceOf_subset_traceN gs N (by omega) _ (mem_traceOf gs j hj))]
  refine ⟨_, rfl, ?_⟩
  apply normalizeNode_raise_ge
  · exact_mod_cast hpot
  · rw [cnt_traceN]
    have hc : 1 ≤ cnt (generateInfoSetN gs j) (traceOf gs) :=
      mem_iff_cnt_pos.mp (mem_traceOf gs j hj)
    calc 3 ≤ N * 1 := by omega
    _ ≤ N * cnt (generateInfoSetN gs j) (traceOf gs) :=
      Nat.mul_le_mul_left N hc

set_option maxRecDepth 4000 in
/-- C9 witness: pot 1, pocket aces, 500 iterations. -/
theorem C9_witness :
    ∃ d, alookup (getAverageStrategy
        (asmMap (gsPos.pot : ℚ) (traceN gsPos 500)))
      (generateInfoSetN gsPos 0) = some d ∧ 3/5 ≤ d.raise :=
  C9_aces_prefer_raise gsPos 500
    { strategy := getAverageStrategy (asmMap (gsPos.pot : ℚ) (traceN gsPos 500)),
      exploitability := ((samplesIn gsPos 0 500).getLast?).getD 0,
      iterations := 500,
      convergence_history := samplesIn gsPos 0 500 }
    0 rfl (by simp [gsPos]) (by simp [gsPos]) (by norm_num)
    (by simp [gsPos]) (by simp [gsPos]) rfl
    (solveStrategy_noBreak gsPos 500 (by omega) (by simp [gsPos])
      (by simp [gsPos]))

set_option maxRecDepth 8000 in
/-- C9 counterexample: the literal claim quantifies over every nonzero pot;
with pot `-1` (aces, preflop, no aggression, 500 iterations) the averaged
strategy puts only `1/1500` on raise, far below 0.6. -/
theorem C9_counterexample :
    gsNeg.street = "preflop" ∧ gsNeg.pot ≠ 0 ∧ gsNeg.history = [] ∧
    (solveStrategy gsNeg 500).map (fun r =>
        (alookup r.strategy (generateInfoSetN gsNeg 0)).map ActMap.raise)
      = some (some (1/1500)) ∧
    (1/1500 : ℚ) < 3/5 := by
  refine ⟨rfl, by simp [gsNeg], rfl, ?_, by norm_num⟩
  have hcnt : cnt (generateInfoSetN gsNeg 0) (traceN gsNeg 500) = 500 := by
    rw [cnt_traceN, traceOf_one gsNeg rfl, cnt_single, if_pos rfl]
  have hq : (gsNeg.pot : ℚ) = -1 := by norm_num [gsNeg]
  rw [solveStrategy_noBreak gsNeg 500 (by omega) (by simp [gsNeg])
    (by simp [gsNeg])]
  simp only [Option.map_some']
  rw [getAverageStrategy_eq, alookup_map_values, alookup_asm,
    if_pos (traceOf_subset_traceN gsNeg 500 (by omega) _
      (mem_traceOf gsNeg 0 (by simp [gsNeg])))]
  simp only [Option.map_some']
  rw [hcnt, hq, normalizeNode_raise_neg (-1) (by norm_num) 500 (by omega)]
  norm_num

/-- C10 (confirmed): a zero pot zeroes every heuristic utility and hence
every regret, so the first exploitability sample is 0, the loop stops
immediately with exactly 1 iteration, exploitability exactly 0.0, history
`[0.0]`, and every visited info set averages to exactly 1/3 per action. -/
theorem C10_zero_pot_converges_immediately :
    ∀ (gs : GameState) (N : ℕ), gs.pot = 0 → gs.players ≠ [] → 1 ≤ N →
      ∃ r, solveStrategy gs N = some r ∧ r.iterations = 1 ∧
        r.exploitability = 0 ∧ r.convergence_history = [0] ∧
        ∀ kd ∈ r.strategy, kd.2 = (⟨1/3, 1/3, 1/3⟩ : ActMap) := by
  intro gs N hpot hne hN
  refine ⟨_, solve_pot_zero gs N hpot hN, rfl, rfl, rfl, ?_⟩
  intro kd hkd
  dsimp only at hkd
  rw [getAverageStrategy_eq] at hkd
  rcases List.mem_map.mp hkd with ⟨kn, hkn, rfl⟩
  rw [asmMap] at hkn
  rcases List.mem_map.mp hkn with ⟨k, hk, rfl⟩
  dsimp only
  have hq : (gs.pot : ℚ) = 0 := by rw [hpot]; norm_num
  rw [hq]
  apply normalizeNode_zero_pot
  exact mem_iff_cnt_pos.mp (mem_fod_nil.mp hk)

/-- C10 witness: the concrete one-player zero-pot state. -/
theorem C10_witness :
    ∃ r, solveStrategy gsW 1 = some r ∧ r.iterations = 1 ∧
      r.exploitability = 0 ∧ r.convergence_history = [0] ∧
      ∀ kd ∈ r.strategy, kd.2 = (⟨1/3, 1/3, 1/3⟩ : ActMap) :=
  C10_zero_pot_converges_immediately gsW 1 rfl (by simp [gsW]) (by omega)
